import Mathlib

/-!
# debug_profiler.h

A shallow embedding of `debug_profiler.h`: the `GMT_Color` palette, the RAII
range `NvtxScope`, and the asynchronous IO tracker (`g_async_trace_map`,
`TRACE_IO_START`, `TRACE_IO_END`).

Conventions of the embedding.

* `uint16_t`, `uint32_t` and `nvtxRangeId_t` values are natural numbers.  The
  code only stores, compares and passes them on; it does no arithmetic on them,
  so no wrap-around can occur.  Every statement below that quantifies over keys
  holds in particular for the keys below `65536`.
* `const char*` labels are `String`s.
* `std::map<uint16_t, nvtxRangeId_t>` is a list of key/value pairs kept in
  strictly increasing key order, which is the order a `std::map` iterates in.
* The NVTX library is external.  It is a parameter `nvtx : Nvtx` that supplies
  the two header constants the code reads and decides which range id
  `nvtxRangeStartEx` returns.  Every call the code makes into the library is
  appended to a chronological call log.
* `TRACE_IO_START` and `TRACE_IO_END` are given twice: as functions on the
  program state, a whole call at a time, and statement by statement, as steps of
  threads that share the state and the mutex `g_async_trace_mtx`.  `callResult_start`
  and `callResult_stop` show that a call run statement by statement ends in the state
  the function computes.
-/

namespace DebugProfiler

/-! ## Types of the C++ source -/

abbrev uint16_t := Nat
abbrev uint32_t := Nat
abbrev nvtxRangeId_t := Nat

namespace GMT_Color

def KERNEL_LAUNCH : uint32_t := 0xFF00FF00
def PREFETCH_OPS : uint32_t := 0xFFFFFF00
def IO_SUBMIT : uint32_t := 0xFF00FFFF
def IO_FLYING : uint32_t := 0xFFFF4500
def FETCH_LOOKUP : uint32_t := 0xFFFF00FF
def FETCH_WAIT : uint32_t := 0xFFFF0000
def FETCH_COPY : uint32_t := 0xFF32CD32
def FETCH_SLOT_LK : uint32_t := 0xFF8A2BE2
def FETCH_ROUTINE : uint32_t := PREFETCH_OPS
def PREFETCH_PROCESS : uint32_t := 0xFF1E90FF
def PREFETCH_LOCK : uint32_t := 0xFFFFD700
def EVICT_SEARCH : uint32_t := 0xFFFFA500
def EVICT_UPDATE : uint32_t := 0xFF00BFFF
def EVICT_COPY : uint32_t := 0xFF98FB98

end GMT_Color

/-- The `nvtxColorType_t` enumeration of the NVTX header. -/
inductive nvtxColorType_t where
  | NVTX_COLOR_UNKNOWN
  | NVTX_COLOR_ARGB
  deriving DecidableEq, Repr

/-- The `nvtxMessageType_t` enumeration of the NVTX header, as far as the code uses it. -/
inductive nvtxMessageType_t where
  | NVTX_MESSAGE_UNKNOWN
  | NVTX_MESSAGE_TYPE_ASCII
  deriving DecidableEq, Repr

/-- The `nvtxEventAttributes_t` record.  `= {0}` zero-initialises every field:
numbers become `0`, enumerations their `UNKNOWN` member, the message the empty
text. -/
structure nvtxEventAttributes_t where
  version : Nat
  size : Nat
  category : Nat
  colorType : nvtxColorType_t
  color : uint32_t
  payloadType : Nat
  reserved0 : Nat
  payload : Nat
  messageType : nvtxMessageType_t
  message : String
  deriving DecidableEq, Repr

/-- The value of `nvtxEventAttributes_t eventAttrib = {0};`. -/
def zeroAttrib : nvtxEventAttributes_t :=
  { version := 0, size := 0, category := 0,
    colorType := nvtxColorType_t.NVTX_COLOR_UNKNOWN, color := 0,
    payloadType := 0, reserved0 := 0, payload := 0,
    messageType := nvtxMessageType_t.NVTX_MESSAGE_UNKNOWN, message := "" }

/-- One call into the NVTX library.  A `nvtxRangeStartEx` entry also records the
range id the library returned. -/
inductive BackendCall where
  | nvtxRangePushEx (attr : nvtxEventAttributes_t)
  | nvtxRangePop
  | nvtxRangeStartEx (attr : nvtxEventAttributes_t) (ret : nvtxRangeId_t)
  | nvtxRangeEnd (id : nvtxRangeId_t)
  deriving DecidableEq, Repr

/-- The external NVTX library: the two header constants the code reads, and the
range id `nvtxRangeStartEx` returns, which may depend on every call made so far
and on the attributes passed. -/
structure Nvtx where
  NVTX_VERSION : Nat
  NVTX_EVENT_ATTRIB_STRUCT_SIZE : Nat
  nvtxRangeStartEx : List BackendCall → nvtxEventAttributes_t → nvtxRangeId_t

/-! ## `std::map<uint16_t, nvtxRangeId_t>` -/

/-- The contents of a `std::map<uint16_t, nvtxRangeId_t>`, in iteration order. -/
abbrev TraceMap := List (uint16_t × nvtxRangeId_t)

namespace TraceMap

/-- The invariant of `std::map`: keys strictly increase along the iteration
order, so no key occurs twice. -/
def WF (m : TraceMap) : Prop := (m.map Prod.fst).Pairwise (· < ·)

instance (m : TraceMap) : Decidable (WF m) := by
  unfold WF; infer_instance

/-- The `find` member: the value of the entry with key `cid`, `none` standing for `end()`. -/
def find (cid : uint16_t) : TraceMap → Option nvtxRangeId_t
  | [] => none
  | (k, v) :: rest => if cid = k then some v else find cid rest

/-- The statement `m[cid] = id`: `operator[]` finds the entry of `cid`, creating it at
its place in key order when there is none, and the assignment stores `id` in it. -/
def assign (cid : uint16_t) (id : nvtxRangeId_t) : TraceMap → TraceMap
  | [] => [(cid, id)]
  | (k, v) :: rest =>
    if cid < k then (cid, id) :: (k, v) :: rest
    else if cid = k then (cid, id) :: rest
    else (k, v) :: assign cid id rest

/-- The `erase(it)` member for the iterator `it` that `find(cid)` returned: it removes
that one entry. -/
def erase (cid : uint16_t) : TraceMap → TraceMap
  | [] => []
  | (k, v) :: rest => if cid = k then rest else (k, v) :: erase cid rest

/-- The number of entries stored under `cid`. -/
def count (cid : uint16_t) (m : TraceMap) : Nat := (m.filter (fun e => e.1 = cid)).length

end TraceMap

/-! ## Program state -/

/-- The state the header's code acts on: the global `g_async_trace_map` and the
chronological log of calls made into the NVTX library. -/
structure World where
  g_async_trace_map : TraceMap
  calls : List BackendCall
  deriving DecidableEq, Repr

/-- The state at program start: the static map is empty and nothing was called. -/
def World.init : World := { g_async_trace_map := [], calls := [] }

/-! ## `NvtxScope` -/

/-- The attributes both `NvtxScope::NvtxScope` and `TRACE_IO_START` fill in. -/
def mkAttrib (nvtx : Nvtx) (name : String) (color : uint32_t) : nvtxEventAttributes_t :=
  { zeroAttrib with
    version := nvtx.NVTX_VERSION
    size := nvtx.NVTX_EVENT_ATTRIB_STRUCT_SIZE
    colorType := nvtxColorType_t.NVTX_COLOR_ARGB
    color := color
    messageType := nvtxMessageType_t.NVTX_MESSAGE_TYPE_ASCII
    message := name }

namespace NvtxScope

/-- The constructor `NvtxScope(const char* name, uint32_t color)`. -/
def ctor (nvtx : Nvtx) (name : String) (color : uint32_t) (w : World) : World :=
  let eventAttrib := mkAttrib nvtx name color
  { w with calls := w.calls ++ [BackendCall.nvtxRangePushEx eventAttrib] }

/-- The destructor `~NvtxScope()`. -/
def dtor (w : World) : World :=
  { w with calls := w.calls ++ [BackendCall.nvtxRangePop] }

end NvtxScope

/-! ## The asynchronous IO tracker -/

/-- `TRACE_IO_START(name, cid)`. -/
def TRACE_IO_START (nvtx : Nvtx) (name : String) (cid : uint16_t) (w : World) : World :=
  let eventAttrib := mkAttrib nvtx name GMT_Color.IO_FLYING
  let id := nvtx.nvtxRangeStartEx w.calls eventAttrib
  { g_async_trace_map := w.g_async_trace_map.assign cid id
    calls := w.calls ++ [BackendCall.nvtxRangeStartEx eventAttrib id] }

/-- `TRACE_IO_END(cid)`. -/
def TRACE_IO_END (cid : uint16_t) (w : World) : World :=
  match w.g_async_trace_map.find cid with
  | some id =>
    { g_async_trace_map := w.g_async_trace_map.erase cid
      calls := w.calls ++ [BackendCall.nvtxRangeEnd id] }
  | none => w

/-! ## Reading a call log -/

/-- The range ids passed to `nvtxRangeEnd`, in call order. -/
def closedIds : List BackendCall → List nvtxRangeId_t
  | [] => []
  | BackendCall.nvtxRangeEnd id :: rest => id :: closedIds rest
  | _ :: rest => closedIds rest

/-- The range ids returned by `nvtxRangeStartEx`, in call order. -/
def openedIds : List BackendCall → List nvtxRangeId_t
  | [] => []
  | BackendCall.nvtxRangeStartEx _ id :: rest => id :: openedIds rest
  | _ :: rest => openedIds rest

/-- The calls of `calls` made after the first `n` ones. -/
def callsSince (n : Nat) (calls : List BackendCall) : List BackendCall := calls.drop n

/-- The range id `TRACE_IO_START(name, _)` receives from `nvtxRangeStartEx` in state `w`. -/
def startId (nvtx : Nvtx) (name : String) (w : World) : nvtxRangeId_t :=
  nvtx.nvtxRangeStartEx w.calls (mkAttrib nvtx name GMT_Color.IO_FLYING)

/-- The library call `TRACE_IO_START(name, _)` makes in state `w`. -/
def startCall (nvtx : Nvtx) (name : String) (w : World) : BackendCall :=
  BackendCall.nvtxRangeStartEx (mkAttrib nvtx name GMT_Color.IO_FLYING) (startId nvtx name w)

/-! ## Sequences of tracker calls -/

/-- One call of the tracker's interface. -/
inductive Op where
  | start (name : String) (cid : uint16_t)
  | stop (cid : uint16_t)
  deriving DecidableEq, Repr

namespace Op

/-- The correlation key a call is about. -/
def cid : Op → uint16_t
  | start _ c => c
  | stop c => c

def isStart : Op → Bool
  | start _ _ => true
  | stop _ => false

/-- Executing one call, the mutex serialising whole calls. -/
def apply (nvtx : Nvtx) : Op → World → World
  | start name c, w => TRACE_IO_START nvtx name c w
  | stop c, w => TRACE_IO_END c w

end Op

/-- Executing a sequence of calls one after the other. -/
def run (nvtx : Nvtx) (ops : List Op) (w : World) : World :=
  ops.foldl (fun acc op => op.apply nvtx acc) w

/-- The calls of `ops` that are about the key `cid`, in order. -/
def callsOn (cid : uint16_t) (ops : List Op) : List Op := ops.filter (fun op => op.cid = cid)

/-- The last call of `ops` that is about the key `cid`, if there is one. -/
def lastOn (cid : uint16_t) (ops : List Op) : Option Op := (callsOn cid ops).getLast?

/-! ## Statement-level execution by threads

The two tracker functions, one statement at a time.  A thread that is inside a call is at
one of the program points below; each step executes the next statement of
`debug_profiler.h` and reports it as an event. -/

/-- The program points inside `TRACE_IO_START` (source lines 78-80) and `TRACE_IO_END`
(source lines 83-89). -/
inductive Pc where
  /-- The `std::lock_guard` on `g_async_trace_mtx` is about to be constructed. -/
  | entry
  /-- The mutex is held and the body starts: `nvtxRangeStartEx(&eventAttrib)` is next in
  `TRACE_IO_START`, `g_async_trace_map.find(cid)` is next in `TRACE_IO_END`. -/
  | locked
  /-- In `TRACE_IO_START`: `nvtxRangeStartEx` returned `id`, the store into
  `g_async_trace_map[cid]` is next (the right-hand side of the assignment on line 79 is
  evaluated before the map is indexed). -/
  | opened (id : nvtxRangeId_t)
  /-- In `TRACE_IO_END`: `find` returned an entry whose value is `id`,
  `nvtxRangeEnd(it->second)` is next. -/
  | found (id : nvtxRangeId_t)
  /-- In `TRACE_IO_END`: `nvtxRangeEnd` returned, `g_async_trace_map.erase(it)` is next. -/
  | closed
  /-- The body is done: the `std::lock_guard` is about to be destroyed. -/
  | leaving
  deriving DecidableEq, Repr

/-- What one statement does, as seen from outside the thread. -/
inductive Event where
  | lock
  | unlock
  | backend (c : BackendCall)
  | mapFind (cid : uint16_t)
  | mapAssign (cid : uint16_t) (id : nvtxRangeId_t)
  | mapErase (cid : uint16_t)
  deriving DecidableEq, Repr

namespace Event

/-- Whether the statement reads or writes `g_async_trace_map`. -/
def touchesMap : Event → Bool
  | mapFind _ => true
  | mapAssign _ _ => true
  | mapErase _ => true
  | _ => false

end Event

/-- A thread: the tracker calls it still has to make, the first being the one it is in or
about to enter, and its program point in that call. -/
structure Thread where
  todo : List Op
  pc : Pc
  deriving DecidableEq, Repr

namespace Thread

/-- The next statement of the thread, run on the shared state `w`: the event, the thread
afterwards and the shared state afterwards.  `none` when the thread has nothing left to
do.  Acquiring the mutex is reported as `Event.lock`; whether it can be acquired is decided
by `step` below. -/
def next (nvtx : Nvtx) (t : Thread) (w : World) : Option (Event × Thread × World) :=
  match t.todo, t.pc with
  | [], _ => none
  | _ :: _, Pc.entry => some (Event.lock, { t with pc := Pc.locked }, w)
  | Op.start name _ :: _, Pc.locked =>
    let eventAttrib := mkAttrib nvtx name GMT_Color.IO_FLYING
    let id := nvtx.nvtxRangeStartEx w.calls eventAttrib
    some (Event.backend (BackendCall.nvtxRangeStartEx eventAttrib id),
      { t with pc := Pc.opened id },
      { w with calls := w.calls ++ [BackendCall.nvtxRangeStartEx eventAttrib id] })
  | Op.start _ cid :: _, Pc.opened id =>
    some (Event.mapAssign cid id, { t with pc := Pc.leaving },
      { w with g_async_trace_map := w.g_async_trace_map.assign cid id })
  | Op.stop cid :: _, Pc.locked =>
    match w.g_async_trace_map.find cid with
    | some id => some (Event.mapFind cid, { t with pc := Pc.found id }, w)
    | none => some (Event.mapFind cid, { t with pc := Pc.leaving }, w)
  | Op.stop _ :: _, Pc.found id =>
    some (Event.backend (BackendCall.nvtxRangeEnd id), { t with pc := Pc.closed },
      { w with calls := w.calls ++ [BackendCall.nvtxRangeEnd id] })
  | Op.stop cid :: _, Pc.closed =>
    some (Event.mapErase cid, { t with pc := Pc.leaving },
      { w with g_async_trace_map := w.g_async_trace_map.erase cid })
  | _ :: rest, Pc.leaving => some (Event.unlock, { todo := rest, pc := Pc.entry }, w)
  | _ :: _, _ => none

/-- The keys of the calls the thread still has to make. -/
def keys (t : Thread) : List uint16_t := t.todo.map Op.cid

end Thread

/-- The whole system: the shared state, the thread that holds `g_async_trace_mtx` if any,
and the threads. -/
structure Sys where
  world : World
  g_async_trace_mtx : Option Nat
  threads : List Thread
  deriving DecidableEq, Repr

/-- Thread `i` executes its next statement.  `none` when there is no thread `i`, when it has
nothing left to do, or when it is blocked on the mutex. -/
def step (nvtx : Nvtx) (i : Nat) (s : Sys) : Option (Event × Sys) :=
  match s.threads[i]? with
  | none => none
  | some t =>
    match t.next nvtx s.world with
    | none => none
    | some (Event.lock, t', w') =>
      match s.g_async_trace_mtx with
      | some _ => none
      | none =>
        some (Event.lock,
          { world := w', g_async_trace_mtx := some i, threads := s.threads.set i t' })
    | some (Event.unlock, t', w') =>
      some (Event.unlock,
        { world := w', g_async_trace_mtx := none, threads := s.threads.set i t' })
    | some (ev, t', w') =>
      some (ev,
        { world := w', g_async_trace_mtx := s.g_async_trace_mtx, threads := s.threads.set i t' })

/-- An execution: the threads named in the schedule take one step each, in that order.
`none` when the schedule names a thread that cannot step. -/
def exec (nvtx : Nvtx) : List Nat → Sys → Option (List (Nat × Event) × Sys)
  | [], s => some ([], s)
  | i :: sched, s =>
    match step nvtx i s with
    | none => none
    | some (ev, s') =>
      match exec nvtx sched s' with
      | none => none
      | some (tr, s'') => some ((i, ev) :: tr, s'')

/-- A single thread that makes the one call `op` on the shared state `w`, the mutex free. -/
def soloSys (op : Op) (w : World) : Sys :=
  { world := w, g_async_trace_mtx := none, threads := [{ todo := [op], pc := Pc.entry }] }

/-- Thread `0` runs on its own until it cannot step or `fuel` steps are done. -/
def runAlone (nvtx : Nvtx) : Nat → Sys → List Event × Sys
  | 0, s => ([], s)
  | fuel + 1, s =>
    match step nvtx 0 s with
    | none => ([], s)
    | some (ev, s') => (ev :: (runAlone nvtx fuel s').1, (runAlone nvtx fuel s').2)

/-- The events of one call `op` made on `w` by a thread on its own.  Five steps are the
longest path through either function. -/
def callEvents (nvtx : Nvtx) (op : Op) (w : World) : List Event :=
  (runAlone nvtx 5 (soloSys op w)).1

/-- The state one call `op` made on `w` by a thread on its own ends in. -/
def callResult (nvtx : Nvtx) (op : Op) (w : World) : Sys :=
  (runAlone nvtx 5 (soloSys op w)).2

/-- The library calls of an event trace that are made while the mutex is held; `held` tells
whether it is held at the start of the trace. -/
def callsUnderLock : Bool → List Event → List BackendCall
  | _, [] => []
  | _, Event.lock :: rest => callsUnderLock true rest
  | _, Event.unlock :: rest => callsUnderLock false rest
  | held, Event.backend c :: rest =>
    if held then c :: callsUnderLock held rest else callsUnderLock held rest
  | held, _ :: rest => callsUnderLock held rest

/-- The library calls of an event trace that are made while the mutex is not held. -/
def callsOutsideLock : Bool → List Event → List BackendCall
  | _, [] => []
  | _, Event.lock :: rest => callsOutsideLock true rest
  | _, Event.unlock :: rest => callsOutsideLock false rest
  | held, Event.backend c :: rest =>
    if held then callsOutsideLock held rest else c :: callsOutsideLock held rest
  | held, _ :: rest => callsOutsideLock held rest

/-- The map operations of an event trace that are made while the mutex is held. -/
def mapOpsUnderLock : Bool → List Event → List Event
  | _, [] => []
  | _, Event.lock :: rest => mapOpsUnderLock true rest
  | _, Event.unlock :: rest => mapOpsUnderLock false rest
  | held, ev :: rest =>
    if held && ev.touchesMap then ev :: mapOpsUnderLock held rest else mapOpsUnderLock held rest

/-- The map operations of an event trace that are made while the mutex is not held. -/
def mapOpsOutsideLock : Bool → List Event → List Event
  | _, [] => []
  | _, Event.lock :: rest => mapOpsOutsideLock true rest
  | _, Event.unlock :: rest => mapOpsOutsideLock false rest
  | held, ev :: rest =>
    if !held && ev.touchesMap then ev :: mapOpsOutsideLock held rest
    else mapOpsOutsideLock held rest

/-- Replays the events of an execution, each tagged with the thread that made it, against
the mutex: a lock acquire must find the mutex free, and every other statement (a map
operation, a library call, the release) must be made by the thread that holds the mutex at
that moment.  `holder` is the thread holding the mutex at the start of the trace. -/
def lockDiscipline : Option Nat → List (Nat × Event) → Bool
  | _, [] => true
  | holder, (i, Event.lock) :: rest => holder.isNone && lockDiscipline (some i) rest
  | holder, (i, Event.unlock) :: rest => decide (holder = some i) && lockDiscipline none rest
  | holder, (i, _) :: rest => decide (holder = some i) && lockDiscipline holder rest

/-! ## Threads that make start/end pairs on their own keys -/

/-- The calls of a thread that, for each label and key of its list in turn, makes
`TRACE_IO_START(label, key)` and then `TRACE_IO_END(key)`. -/
def pairs : List (String × uint16_t) → List Op
  | [] => []
  | (name, cid) :: rest => Op.start name cid :: Op.stop cid :: pairs rest

/-- The system at program start: one thread per list of `progs`, none of them inside a call,
the mutex free, the map empty. -/
def initSys (progs : List (List (String × uint16_t))) : Sys :=
  { world := World.init
    g_async_trace_mtx := none
    threads := progs.map (fun p => { todo := pairs p, pc := Pc.entry }) }

/-- No key is used by two different threads. -/
def DisjointKeys (progs : List (List (String × uint16_t))) : Prop :=
  progs.Pairwise (fun p q => ∀ e ∈ p, ∀ f ∈ q, e.2 ≠ f.2)

instance (progs : List (List (String × uint16_t))) : Decidable (DisjointKeys progs) := by
  unfold DisjointKeys; infer_instance

/-- Every thread has made all its calls. -/
def allDone (s : Sys) : Prop := ∀ t ∈ s.threads, t.todo = []

instance (s : Sys) : Decidable (allDone s) := by
  unfold allDone; infer_instance

/-- Whether a list of calls consists of start/end pairs, each pair on one key. -/
def isPairs : List Op → Bool
  | [] => true
  | Op.start _ c :: Op.stop c' :: rest => decide (c = c') && isPairs rest
  | _ => false

namespace Thread

/-- Whether the thread's remaining calls and program point fit a thread that makes start/end
pairs: a start is followed by the end on its key, and the program point is one of the
function the thread is in. -/
def shaped (t : Thread) : Bool :=
  match t.todo, t.pc with
  | [], Pc.entry => true
  | [], _ => false
  | Op.start _ _ :: _, Pc.found _ => false
  | Op.start _ _ :: _, Pc.closed => false
  | Op.start name c :: rest, _ => isPairs (Op.start name c :: rest)
  | Op.stop _ :: _, Pc.opened _ => false
  | Op.stop _ :: rest, _ => isPairs rest

/-- Whether the thread has stored an entry under `k` and not erased it yet: it is past the
store of a start on `k`, or in or before an end on `k` and not past its erase. -/
def holds (t : Thread) (k : uint16_t) : Bool :=
  match t.todo, t.pc with
  | Op.start _ c :: _, Pc.leaving => decide (c = k)
  | Op.stop _ :: _, Pc.leaving => false
  | Op.stop _ :: _, Pc.opened _ => false
  | Op.stop c :: _, _ => decide (c = k)
  | _, _ => false

/-- An upper bound on the number of steps the thread can still take. -/
def budget (t : Thread) : Nat :=
  match t.todo, t.pc with
  | [], _ => 0
  | _ :: rest, Pc.entry => 5 + 5 * rest.length
  | _ :: rest, Pc.locked => 4 + 5 * rest.length
  | _ :: rest, Pc.found _ => 3 + 5 * rest.length
  | _ :: rest, Pc.opened _ => 2 + 5 * rest.length
  | _ :: rest, Pc.closed => 2 + 5 * rest.length
  | _ :: rest, Pc.leaving => 1 + 5 * rest.length

end Thread

/-- An upper bound on the number of steps the system can still take. -/
def Sys.budget (s : Sys) : Nat := (s.threads.map Thread.budget).sum

/-- What holds of every state the threads of `initSys` can reach when their keys are
disjoint. -/
structure SysInv (s : Sys) : Prop where
  wf : TraceMap.WF s.world.g_async_trace_map
  holder : ∀ i, s.g_async_trace_mtx = some i → i < s.threads.length
  mutex : ∀ (i : Nat) (t : Thread), s.threads[i]? = some t →
    (s.g_async_trace_mtx = some i ↔ t.pc ≠ Pc.entry)
  shaped : ∀ (i : Nat) (t : Thread), s.threads[i]? = some t → t.shaped = true
  disjoint : ∀ (i j : Nat) (ti tj : Thread), i ≠ j → s.threads[i]? = some ti →
    s.threads[j]? = some tj →
    ∀ k, k ∈ ti.keys → k ∉ tj.keys
  present : ∀ k, (TraceMap.find k s.world.g_async_trace_map).isSome = true ↔
    ∃ (i : Nat) (t : Thread), s.threads[i]? = some t ∧ t.holds k = true

/-! ## The bookkeeping invariant of the tracker -/

/-- What holds of a state reached from program start when the library never returns a range
id twice: the map is a `std::map`; every stored id was returned by an earlier
`nvtxRangeStartEx` and has not been passed to `nvtxRangeEnd`; different keys store different
ids; no id was passed to `nvtxRangeEnd` twice; and every `nvtxRangeEnd` call is for an id a
`nvtxRangeStartEx` call before it returned. -/
structure Bookkeeping (w : World) : Prop where
  wf : TraceMap.WF w.g_async_trace_map
  stored_opened : ∀ cid id, TraceMap.find cid w.g_async_trace_map = some id →
    id ∈ openedIds w.calls
  stored_not_closed : ∀ cid id, TraceMap.find cid w.g_async_trace_map = some id →
    id ∉ closedIds w.calls
  stored_injective : ∀ c1 c2 id, TraceMap.find c1 w.g_async_trace_map = some id →
    TraceMap.find c2 w.g_async_trace_map = some id → c1 = c2
  closed_nodup : (closedIds w.calls).Nodup
  closed_opened : ∀ id ∈ closedIds w.calls, id ∈ openedIds w.calls
  close_after_open : ∀ pre post id, w.calls = pre ++ BackendCall.nvtxRangeEnd id :: post →
    id ∈ openedIds pre

/-! ## A tracing backend with a stack of scoped ranges -/

/-- The scoped half of a tracing backend as the interface description has it: `OpenScoped`
opens a range on top of the calling thread's stack, `CloseScoped` closes the innermost open
one.  `opened` is the stack, innermost range first; `closed` lists the ranges closed so far,
in closing order. -/
structure RangeStack where
  opened : List nvtxEventAttributes_t
  closed : List nvtxEventAttributes_t
  deriving DecidableEq, Repr

namespace RangeStack

/-- The effect of one library call on the calling thread's range stack. -/
def call (s : RangeStack) : BackendCall → RangeStack
  | BackendCall.nvtxRangePushEx attr => { s with opened := attr :: s.opened }
  | BackendCall.nvtxRangePop =>
    match s.opened with
    | [] => s
    | attr :: rest => { opened := rest, closed := s.closed ++ [attr] }
  | _ => s

/-- The effect of a sequence of library calls. -/
def replay (s : RangeStack) (calls : List BackendCall) : RangeStack := calls.foldl call s

end RangeStack

/-! ## Sample data -/

/-- A library that numbers the ranges it opens by the length of the call log. -/
def sampleNvtx : Nvtx :=
  { NVTX_VERSION := 3
    NVTX_EVENT_ATTRIB_STRUCT_SIZE := 48
    nvtxRangeStartEx := fun calls _ => calls.length + 1 }

/-- A state with one open asynchronous range, opened under key `7`. -/
def sampleWorld : World := TRACE_IO_START sampleNvtx "read" 7 World.init

/-- A sequence of tracker calls that reuses key `7` and interleaves it with key `8`. -/
def sampleOps : List Op :=
  [Op.start "a" 7, Op.start "b" 8, Op.stop 7, Op.start "c" 7, Op.stop 9, Op.stop 8]

/-- Two threads: thread `0` makes two start/end pairs on key `1`, thread `1` makes one on
key `2`. -/
def samplePlan : List (List (String × uint16_t)) := [[("a", 1), ("b", 1)], [("c", 2)]]

/-- A schedule for `samplePlan` that runs all calls to their end, the calls of the two threads
alternating. -/
def sampleSched : List Nat :=
  [0, 0, 0, 0, 1, 1, 1, 1, 0, 0, 0, 0, 0, 0, 0, 0, 0, 1, 1, 1, 1, 1, 0, 0, 0, 0, 0]

/-- The events and the final state of `sampleSched` on `samplePlan`. -/
def sampleOutcome : List (Nat × Event) × Sys :=
  (exec sampleNvtx sampleSched (initSys samplePlan)).getD ([], initSys samplePlan)

/-! ## Facts about the map operations -/

namespace TraceMap

theorem find_nil (cid : uint16_t) : find cid [] = none := rfl

theorem find_cons (cid k : uint16_t) (v : nvtxRangeId_t) (rest : TraceMap) :
    find cid ((k, v) :: rest) = if cid = k then some v else find cid rest := rfl

theorem find_eq_none_iff (cid : uint16_t) (m : TraceMap) :
    find cid m = none ↔ cid ∉ m.map Prod.fst := by
  induction m with
  | nil => simp [find]
  | cons e rest ih =>
    obtain ⟨k, v⟩ := e
    by_cases h : cid = k
    · simp [find, h]
    · simp [find, h, ih]

theorem mem_of_find_eq_some {cid : uint16_t} {id : nvtxRangeId_t} {m : TraceMap}
    (h : find cid m = some id) : (cid, id) ∈ m := by
  induction m with
  | nil => simp [find] at h
  | cons e rest ih =>
    obtain ⟨k, v⟩ := e
    by_cases hk : cid = k
    · simp [find, hk] at h
      simp [hk, h]
    · simp [find, hk] at h
      exact List.mem_cons_of_mem _ (ih h)

theorem find_assign_self (cid : uint16_t) (id : nvtxRangeId_t) (m : TraceMap) :
    find cid (assign cid id m) = some id := by
  induction m with
  | nil => simp [assign, find]
  | cons e rest ih =>
    obtain ⟨k, v⟩ := e
    by_cases h1 : cid < k
    · simp [assign, h1, find]
    · by_cases h2 : cid = k
      · simp [assign, h2, find]
      · simp [assign, h1, h2, find, ih]

theorem find_assign_ne {cid other : uint16_t} (h : other ≠ cid) (id : nvtxRangeId_t)
    (m : TraceMap) : find other (assign cid id m) = find other m := by
  induction m with
  | nil => simp [assign, find, h]
  | cons e rest ih =>
    obtain ⟨k, v⟩ := e
    by_cases h1 : cid < k
    · simp [assign, h1, find, h]
    · by_cases h2 : cid = k
      · subst h2
        simp [assign, find, h]
      · simp [assign, h1, h2, find, ih]

theorem find_erase_ne {cid other : uint16_t} (h : other ≠ cid) (m : TraceMap) :
    find other (erase cid m) = find other m := by
  induction m with
  | nil => simp [erase]
  | cons e rest ih =>
    obtain ⟨k, v⟩ := e
    by_cases h2 : cid = k
    · subst h2
      simp [erase, find, h]
    · simp [erase, h2, find, ih]

theorem erase_of_find_eq_none {cid : uint16_t} {m : TraceMap} (h : find cid m = none) :
    erase cid m = m := by
  induction m with
  | nil => rfl
  | cons e rest ih =>
    obtain ⟨k, v⟩ := e
    by_cases h2 : cid = k
    · simp [find, h2] at h
    · simp [find, h2] at h
      simp [erase, h2, ih h]

theorem WF_nil : WF [] := by simp [WF]

theorem WF_cons_iff (k : uint16_t) (v : nvtxRangeId_t) (rest : TraceMap) :
    WF ((k, v) :: rest) ↔ (∀ e ∈ rest, k < e.1) ∧ WF rest := by
  simp [WF, List.pairwise_cons]

theorem find_erase_self {cid : uint16_t} {m : TraceMap} (hwf : WF m) :
    find cid (erase cid m) = none := by
  induction m with
  | nil => rfl
  | cons e rest ih =>
    obtain ⟨k, v⟩ := e
    rw [WF_cons_iff] at hwf
    by_cases h2 : cid = k
    · subst h2
      simp only [erase, if_true]
      rw [find_eq_none_iff]
      intro hmem
      obtain ⟨e, he, hek⟩ := List.mem_map.mp hmem
      have hlt := hwf.1 e he
      rw [hek] at hlt
      exact lt_irrefl _ hlt
    · simp [erase, h2, find, ih hwf.2]

theorem mem_assign {cid : uint16_t} {id : nvtxRangeId_t} {m : TraceMap}
    {e : uint16_t × nvtxRangeId_t} (h : e ∈ assign cid id m) : e = (cid, id) ∨ e ∈ m := by
  induction m with
  | nil => simp [assign] at h; exact Or.inl h
  | cons e0 rest ih =>
    obtain ⟨k, v⟩ := e0
    by_cases h1 : cid < k
    · simp only [assign, h1, if_true, List.mem_cons] at h
      rcases h with h | h | h
      · exact Or.inl h
      · exact Or.inr (by simp [h])
      · exact Or.inr (List.mem_cons_of_mem _ h)
    · by_cases h2 : cid = k
      · simp only [assign, h1, h2, if_true, if_false, List.mem_cons, lt_self_iff_false] at h
        rcases h with h | h
        · exact Or.inl (by simpa [h2] using h)
        · exact Or.inr (List.mem_cons_of_mem _ h)
      · simp only [assign, h1, h2, if_false, List.mem_cons] at h
        rcases h with h | h
        · exact Or.inr (by simp [h])
        · rcases ih h with h | h
          · exact Or.inl h
          · exact Or.inr (List.mem_cons_of_mem _ h)

theorem mem_erase {cid : uint16_t} {m : TraceMap} {e : uint16_t × nvtxRangeId_t}
    (h : e ∈ erase cid m) : e ∈ m := by
  induction m with
  | nil => simp [erase] at h
  | cons e0 rest ih =>
    obtain ⟨k, v⟩ := e0
    by_cases h2 : cid = k
    · simp only [erase, h2, if_true] at h
      exact List.mem_cons_of_mem _ h
    · simp only [erase, h2, if_false, List.mem_cons] at h
      rcases h with h | h
      · simp [h]
      · exact List.mem_cons_of_mem _ (ih h)

theorem WF_assign (cid : uint16_t) (id : nvtxRangeId_t) {m : TraceMap} (hwf : WF m) :
    WF (assign cid id m) := by
  induction m with
  | nil => simp [assign, WF]
  | cons e0 rest ih =>
    obtain ⟨k, v⟩ := e0
    have hw := (WF_cons_iff k v rest).mp hwf
    by_cases h1 : cid < k
    · simp only [assign, h1, if_true]
      rw [WF_cons_iff]
      refine ⟨?_, hwf⟩
      intro e he
      rcases List.mem_cons.mp he with he | he
      · simpa [he] using h1
      · exact lt_trans h1 (hw.1 e he)
    · by_cases h2 : cid = k
      · simp only [assign, h1, h2, if_true, if_false, lt_self_iff_false]
        rw [WF_cons_iff]
        exact ⟨hw.1, hw.2⟩
      · simp only [assign, h1, h2, if_false]
        rw [WF_cons_iff]
        refine ⟨?_, ih hw.2⟩
        intro e he
        rcases mem_assign he with he | he
        · have hlt : k < cid := lt_of_le_of_ne (not_lt.mp h1) (fun h => h2 h.symm)
          simpa [he] using hlt
        · exact hw.1 e he

theorem WF_erase (cid : uint16_t) {m : TraceMap} (hwf : WF m) : WF (erase cid m) := by
  induction m with
  | nil => simp [erase, WF]
  | cons e0 rest ih =>
    obtain ⟨k, v⟩ := e0
    have hw := (WF_cons_iff k v rest).mp hwf
    by_cases h2 : cid = k
    · simp only [erase, h2, if_true]
      exact hw.2
    · simp only [erase, h2, if_false]
      rw [WF_cons_iff]
      exact ⟨fun e he => hw.1 e (mem_erase he), ih hw.2⟩

theorem count_le_one {m : TraceMap} (hwf : WF m) (cid : uint16_t) : count cid m ≤ 1 := by
  induction m with
  | nil => simp [count]
  | cons e0 rest ih =>
    obtain ⟨k, v⟩ := e0
    have hw := (WF_cons_iff k v rest).mp hwf
    by_cases h2 : k = cid
    · have hnone : rest.filter (fun e => decide (e.1 = cid)) = [] := by
        rw [List.filter_eq_nil_iff]
        intro e he
        have hlt := hw.1 e he
        simp only [decide_eq_true_eq]
        intro heq
        rw [heq, h2] at hlt
        exact lt_irrefl _ hlt
      simp [count, h2, hnone]
    · have := ih hw.2
      simpa [count, h2] using this

theorem eq_nil_of_find_eq_none {m : TraceMap} (h : ∀ cid, find cid m = none) : m = [] := by
  cases m with
  | nil => rfl
  | cons e rest =>
    obtain ⟨k, v⟩ := e
    have := h k
    simp [find] at this

end TraceMap

/-! ## Facts about call logs -/

theorem closedIds_append (a b : List BackendCall) :
    closedIds (a ++ b) = closedIds a ++ closedIds b := by
  induction a with
  | nil => rfl
  | cons c rest ih => cases c <;> simp [closedIds, ih]

theorem openedIds_append (a b : List BackendCall) :
    openedIds (a ++ b) = openedIds a ++ openedIds b := by
  induction a with
  | nil => rfl
  | cons c rest ih => cases c <;> simp [openedIds, ih]

theorem callsSince_append (a b : List BackendCall) : callsSince a.length (a ++ b) = b := by
  simp [callsSince]

/-! ## Single calls of the tracker -/

theorem TRACE_IO_START_map (nvtx : Nvtx) (name : String) (cid : uint16_t) (w : World) :
    (TRACE_IO_START nvtx name cid w).g_async_trace_map =
      TraceMap.assign cid (nvtx.nvtxRangeStartEx w.calls (mkAttrib nvtx name GMT_Color.IO_FLYING))
        w.g_async_trace_map := rfl

theorem TRACE_IO_START_calls (nvtx : Nvtx) (name : String) (cid : uint16_t) (w : World) :
    (TRACE_IO_START nvtx name cid w).calls =
      w.calls ++ [BackendCall.nvtxRangeStartEx (mkAttrib nvtx name GMT_Color.IO_FLYING)
        (nvtx.nvtxRangeStartEx w.calls (mkAttrib nvtx name GMT_Color.IO_FLYING))] := rfl

theorem TRACE_IO_END_of_none {cid : uint16_t} {w : World}
    (h : TraceMap.find cid w.g_async_trace_map = none) : TRACE_IO_END cid w = w := by
  simp [TRACE_IO_END, h]

theorem TRACE_IO_END_of_some {cid : uint16_t} {id : nvtxRangeId_t} {w : World}
    (h : TraceMap.find cid w.g_async_trace_map = some id) :
    TRACE_IO_END cid w =
      { g_async_trace_map := TraceMap.erase cid w.g_async_trace_map
        calls := w.calls ++ [BackendCall.nvtxRangeEnd id] } := by
  simp [TRACE_IO_END, h]

theorem TRACE_IO_START_WF (nvtx : Nvtx) (name : String) (cid : uint16_t) {w : World}
    (hwf : TraceMap.WF w.g_async_trace_map) :
    TraceMap.WF (TRACE_IO_START nvtx name cid w).g_async_trace_map :=
  TraceMap.WF_assign _ _ hwf

theorem TRACE_IO_END_WF (cid : uint16_t) {w : World} (hwf : TraceMap.WF w.g_async_trace_map) :
    TraceMap.WF (TRACE_IO_END cid w).g_async_trace_map := by
  cases h : TraceMap.find cid w.g_async_trace_map with
  | none => rw [TRACE_IO_END_of_none h]; exact hwf
  | some id => rw [TRACE_IO_END_of_some h]; exact TraceMap.WF_erase _ hwf

/-- C1: `TRACE_IO_END(cid)` for a key that has no entry returns the state it was given: it
makes no call into the library, in particular no `nvtxRangeEnd`, and every key finds what it
found before. -/
theorem TRACE_IO_END_absent_noop (cid : uint16_t) (w : World)
    (h : TraceMap.find cid w.g_async_trace_map = none) :
    TRACE_IO_END cid w = w ∧
      (TRACE_IO_END cid w).calls = w.calls ∧
      closedIds (callsSince w.calls.length (TRACE_IO_END cid w).calls) = [] ∧
      (TRACE_IO_END cid w).g_async_trace_map = w.g_async_trace_map ∧
      ∀ other : uint16_t, TraceMap.find other (TRACE_IO_END cid w).g_async_trace_map =
        TraceMap.find other w.g_async_trace_map := by
  rw [TRACE_IO_END_of_none h]
  refine ⟨rfl, rfl, ?_, rfl, fun _ => rfl⟩
  simp [callsSince, closedIds]

theorem TRACE_IO_END_absent_noop_witness :
    TraceMap.find 9 sampleWorld.g_async_trace_map = none ∧
      (TRACE_IO_END 9 sampleWorld = sampleWorld ∧
      (TRACE_IO_END 9 sampleWorld).calls = sampleWorld.calls ∧
      closedIds (callsSince sampleWorld.calls.length (TRACE_IO_END 9 sampleWorld).calls) = [] ∧
      (TRACE_IO_END 9 sampleWorld).g_async_trace_map = sampleWorld.g_async_trace_map ∧
      ∀ other : uint16_t, TraceMap.find other (TRACE_IO_END 9 sampleWorld).g_async_trace_map =
        TraceMap.find other sampleWorld.g_async_trace_map) :=
  ⟨by decide, TRACE_IO_END_absent_noop 9 sampleWorld (by decide)⟩

/-- C2: when the map is a `std::map` and holds `id` under `cid`, `TRACE_IO_END(cid)` makes
exactly one library call, `nvtxRangeEnd(id)`; afterwards `cid` has no entry and every other
key finds what it found before. -/
theorem TRACE_IO_END_present_closes (cid : uint16_t) (id : nvtxRangeId_t) (w : World)
    (hwf : TraceMap.WF w.g_async_trace_map)
    (h : TraceMap.find cid w.g_async_trace_map = some id) :
    (TRACE_IO_END cid w).calls = w.calls ++ [BackendCall.nvtxRangeEnd id] ∧
      closedIds (callsSince w.calls.length (TRACE_IO_END cid w).calls) = [id] ∧
      TraceMap.find cid (TRACE_IO_END cid w).g_async_trace_map = none ∧
      TraceMap.count cid (TRACE_IO_END cid w).g_async_trace_map = 0 ∧
      (∀ other : uint16_t, other ≠ cid →
        TraceMap.find other (TRACE_IO_END cid w).g_async_trace_map =
          TraceMap.find other w.g_async_trace_map) ∧
      TraceMap.WF (TRACE_IO_END cid w).g_async_trace_map := by
  have hnone : TraceMap.find cid (TraceMap.erase cid w.g_async_trace_map) = none :=
    TraceMap.find_erase_self hwf
  rw [TRACE_IO_END_of_some h]
  refine ⟨rfl, ?_, hnone, ?_, fun other ho => TraceMap.find_erase_ne ho _,
    TraceMap.WF_erase _ hwf⟩
  · simp [callsSince, closedIds]
  · rw [TraceMap.find_eq_none_iff] at hnone
    simp only [TraceMap.count, List.length_eq_zero, List.filter_eq_nil_iff, decide_eq_true_eq]
    intro e he hk
    exact hnone (List.mem_map.mpr ⟨e, he, hk⟩)

theorem TRACE_IO_END_present_closes_witness :
    TraceMap.WF sampleWorld.g_async_trace_map ∧
    TraceMap.find 7 sampleWorld.g_async_trace_map = some 1 ∧
    ((TRACE_IO_END 7 sampleWorld).calls = sampleWorld.calls ++ [BackendCall.nvtxRangeEnd 1] ∧
      closedIds (callsSince sampleWorld.calls.length (TRACE_IO_END 7 sampleWorld).calls) = [1] ∧
      TraceMap.find 7 (TRACE_IO_END 7 sampleWorld).g_async_trace_map = none ∧
      TraceMap.count 7 (TRACE_IO_END 7 sampleWorld).g_async_trace_map = 0 ∧
      (∀ other : uint16_t, other ≠ 7 →
        TraceMap.find other (TRACE_IO_END 7 sampleWorld).g_async_trace_map =
          TraceMap.find other sampleWorld.g_async_trace_map) ∧
      TraceMap.WF (TRACE_IO_END 7 sampleWorld).g_async_trace_map) :=
  ⟨by decide, by decide, TRACE_IO_END_present_closes 7 1 sampleWorld (by decide) (by decide)⟩

theorem TRACE_IO_START_eq (nvtx : Nvtx) (name : String) (cid : uint16_t) (w : World) :
    TRACE_IO_START nvtx name cid w =
      { g_async_trace_map := TraceMap.assign cid (startId nvtx name w) w.g_async_trace_map
        calls := w.calls ++ [startCall nvtx name w] } := rfl

theorem TraceMap.count_pos_of_find {cid : uint16_t} {id : nvtxRangeId_t} {m : TraceMap}
    (h : TraceMap.find cid m = some id) : 0 < TraceMap.count cid m := by
  have hmem : (cid, id) ∈ m.filter (fun e => decide (e.1 = cid)) := by
    rw [List.mem_filter]
    exact ⟨TraceMap.mem_of_find_eq_some h, by simp⟩
  exact List.length_pos_of_mem hmem

theorem find_after_END_self (cid : uint16_t) {w : World}
    (hwf : TraceMap.WF w.g_async_trace_map) :
    TraceMap.find cid (TRACE_IO_END cid w).g_async_trace_map = none := by
  cases h : TraceMap.find cid w.g_async_trace_map with
  | none => rw [TRACE_IO_END_of_none h]; exact h
  | some id => rw [TRACE_IO_END_of_some h]; exact TraceMap.find_erase_self hwf

theorem find_after_END_ne {cid other : uint16_t} (ho : other ≠ cid) (w : World) :
    TraceMap.find other (TRACE_IO_END cid w).g_async_trace_map =
      TraceMap.find other w.g_async_trace_map := by
  cases h : TraceMap.find cid w.g_async_trace_map with
  | none => rw [TRACE_IO_END_of_none h]
  | some id => rw [TRACE_IO_END_of_some h]; exact TraceMap.find_erase_ne ho _

theorem find_after_START_self (nvtx : Nvtx) (name : String) (cid : uint16_t) (w : World) :
    TraceMap.find cid (TRACE_IO_START nvtx name cid w).g_async_trace_map =
      some (startId nvtx name w) :=
  TraceMap.find_assign_self _ _ _

theorem find_after_START_ne (nvtx : Nvtx) (name : String) {cid other : uint16_t}
    (ho : other ≠ cid) (w : World) :
    TraceMap.find other (TRACE_IO_START nvtx name cid w).g_async_trace_map =
      TraceMap.find other w.g_async_trace_map :=
  TraceMap.find_assign_ne ho _ _

/-- C3: `TRACE_IO_START(name, cid)` on a `std::map` makes exactly one library call, a
`nvtxRangeStartEx` whose colour is the ARGB value `GMT_Color::IO_FLYING = 0xFFFF4500` and
whose message is `name`, and no `nvtxRangeEnd`; afterwards the map holds under `cid` exactly
one entry, with the range id that call returned, and every other key finds what it found
before. -/
theorem TRACE_IO_START_opens_and_stores (nvtx : Nvtx) (name : String) (cid : uint16_t)
    (w : World) (hwf : TraceMap.WF w.g_async_trace_map) :
    ∃ (attr : nvtxEventAttributes_t) (id : nvtxRangeId_t),
      (TRACE_IO_START nvtx name cid w).calls =
        w.calls ++ [BackendCall.nvtxRangeStartEx attr id] ∧
      id = nvtx.nvtxRangeStartEx w.calls attr ∧
      attr.colorType = nvtxColorType_t.NVTX_COLOR_ARGB ∧
      attr.color = GMT_Color.IO_FLYING ∧
      GMT_Color.IO_FLYING = 0xFFFF4500 ∧
      attr.messageType = nvtxMessageType_t.NVTX_MESSAGE_TYPE_ASCII ∧
      attr.message = name ∧
      openedIds (callsSince w.calls.length (TRACE_IO_START nvtx name cid w).calls) = [id] ∧
      closedIds (callsSince w.calls.length (TRACE_IO_START nvtx name cid w).calls) = [] ∧
      TraceMap.find cid (TRACE_IO_START nvtx name cid w).g_async_trace_map = some id ∧
      TraceMap.count cid (TRACE_IO_START nvtx name cid w).g_async_trace_map = 1 ∧
      (∀ other : uint16_t, other ≠ cid →
        TraceMap.find other (TRACE_IO_START nvtx name cid w).g_async_trace_map =
          TraceMap.find other w.g_async_trace_map) ∧
      TraceMap.WF (TRACE_IO_START nvtx name cid w).g_async_trace_map := by
  refine ⟨mkAttrib nvtx name GMT_Color.IO_FLYING, startId nvtx name w, rfl, rfl, rfl, rfl, rfl,
    rfl, rfl, ?_, ?_, find_after_START_self nvtx name cid w, ?_,
    fun other ho => find_after_START_ne nvtx name ho w, TRACE_IO_START_WF nvtx name cid hwf⟩
  · rw [TRACE_IO_START_calls, callsSince_append]; rfl
  · rw [TRACE_IO_START_calls, callsSince_append]; rfl
  · have h1 := TraceMap.count_le_one (TRACE_IO_START_WF nvtx name cid hwf) cid
    have h2 := TraceMap.count_pos_of_find (find_after_START_self nvtx name cid w)
    omega

theorem TRACE_IO_START_opens_and_stores_witness :
    TraceMap.WF sampleWorld.g_async_trace_map ∧
    ∃ (attr : nvtxEventAttributes_t) (id : nvtxRangeId_t),
      (TRACE_IO_START sampleNvtx "write" 7 sampleWorld).calls =
        sampleWorld.calls ++ [BackendCall.nvtxRangeStartEx attr id] ∧
      id = sampleNvtx.nvtxRangeStartEx sampleWorld.calls attr ∧
      attr.colorType = nvtxColorType_t.NVTX_COLOR_ARGB ∧
      attr.color = GMT_Color.IO_FLYING ∧
      GMT_Color.IO_FLYING = 0xFFFF4500 ∧
      attr.messageType = nvtxMessageType_t.NVTX_MESSAGE_TYPE_ASCII ∧
      attr.message = "write" ∧
      openedIds (callsSince sampleWorld.calls.length
        (TRACE_IO_START sampleNvtx "write" 7 sampleWorld).calls) = [id] ∧
      closedIds (callsSince sampleWorld.calls.length
        (TRACE_IO_START sampleNvtx "write" 7 sampleWorld).calls) = [] ∧
      TraceMap.find 7 (TRACE_IO_START sampleNvtx "write" 7 sampleWorld).g_async_trace_map =
        some id ∧
      TraceMap.count 7 (TRACE_IO_START sampleNvtx "write" 7 sampleWorld).g_async_trace_map = 1 ∧
      (∀ other : uint16_t, other ≠ 7 →
        TraceMap.find other (TRACE_IO_START sampleNvtx "write" 7 sampleWorld).g_async_trace_map =
          TraceMap.find other sampleWorld.g_async_trace_map) ∧
      TraceMap.WF (TRACE_IO_START sampleNvtx "write" 7 sampleWorld).g_async_trace_map :=
  ⟨by decide, TRACE_IO_START_opens_and_stores sampleNvtx "write" 7 sampleWorld (by decide)⟩

/-- C5: on a `std::map`, `TRACE_IO_END(cid)` twice in a row gives the same state, map and
call log alike, as `TRACE_IO_END(cid)` once.  In particular after a `TRACE_IO_START(name,
cid)` the first end makes the one `nvtxRangeEnd` call, for the start's range id, and the
second end makes no call at all. -/
theorem TRACE_IO_END_idempotent (cid : uint16_t) (w : World)
    (hwf : TraceMap.WF w.g_async_trace_map) :
    TRACE_IO_END cid (TRACE_IO_END cid w) = TRACE_IO_END cid w ∧
      ∀ (nvtx : Nvtx) (name : String),
        (TRACE_IO_END cid (TRACE_IO_START nvtx name cid w)).calls =
          (TRACE_IO_START nvtx name cid w).calls ++
            [BackendCall.nvtxRangeEnd (startId nvtx name w)] ∧
        (TRACE_IO_END cid (TRACE_IO_END cid (TRACE_IO_START nvtx name cid w))).calls =
          (TRACE_IO_END cid (TRACE_IO_START nvtx name cid w)).calls ∧
        closedIds (callsSince (TRACE_IO_START nvtx name cid w).calls.length
          (TRACE_IO_END cid (TRACE_IO_END cid (TRACE_IO_START nvtx name cid w))).calls) =
          [startId nvtx name w] ∧
        TraceMap.find cid
          (TRACE_IO_END cid (TRACE_IO_END cid
            (TRACE_IO_START nvtx name cid w))).g_async_trace_map = none := by
  refine ⟨TRACE_IO_END_of_none (find_after_END_self cid hwf), ?_⟩
  intro nvtx name
  have hwf1 := TRACE_IO_START_WF nvtx name cid hwf
  have hidem : TRACE_IO_END cid (TRACE_IO_END cid (TRACE_IO_START nvtx name cid w)) =
      TRACE_IO_END cid (TRACE_IO_START nvtx name cid w) :=
    TRACE_IO_END_of_none (find_after_END_self cid hwf1)
  have hcalls : (TRACE_IO_END cid (TRACE_IO_START nvtx name cid w)).calls =
      (TRACE_IO_START nvtx name cid w).calls ++
        [BackendCall.nvtxRangeEnd (startId nvtx name w)] := by
    rw [TRACE_IO_END_of_some (find_after_START_self nvtx name cid w)]
  refine ⟨hcalls, by rw [hidem], ?_, ?_⟩
  · rw [hidem, hcalls, callsSince_append]
    rfl
  · rw [hidem]
    exact find_after_END_self cid hwf1

theorem TRACE_IO_END_idempotent_witness :
    TraceMap.WF sampleWorld.g_async_trace_map ∧
    (TRACE_IO_END 7 (TRACE_IO_END 7 sampleWorld) = TRACE_IO_END 7 sampleWorld ∧
      ∀ (nvtx : Nvtx) (name : String),
        (TRACE_IO_END 7 (TRACE_IO_START nvtx name 7 sampleWorld)).calls =
          (TRACE_IO_START nvtx name 7 sampleWorld).calls ++
            [BackendCall.nvtxRangeEnd (startId nvtx name sampleWorld)] ∧
        (TRACE_IO_END 7 (TRACE_IO_END 7 (TRACE_IO_START nvtx name 7 sampleWorld))).calls =
          (TRACE_IO_END 7 (TRACE_IO_START nvtx name 7 sampleWorld)).calls ∧
        closedIds (callsSince (TRACE_IO_START nvtx name 7 sampleWorld).calls.length
          (TRACE_IO_END 7 (TRACE_IO_END 7 (TRACE_IO_START nvtx name 7 sampleWorld))).calls) =
          [startId nvtx name sampleWorld] ∧
        TraceMap.find 7
          (TRACE_IO_END 7 (TRACE_IO_END 7
            (TRACE_IO_START nvtx name 7 sampleWorld))).g_async_trace_map = none) :=
  ⟨by decide, TRACE_IO_END_idempotent 7 sampleWorld (by decide)⟩

/-! ## `NvtxScope` nesting -/

/-- C8: constructing `NvtxScope A`, then `NvtxScope B`, then destroying `B`, then `A`, makes
exactly the library calls `nvtxRangePushEx(A)`, `nvtxRangePushEx(B)`, `nvtxRangePop()`,
`nvtxRangePop()`, each push carrying the given label and the given colour as an ARGB colour,
and leaves the map alone.  On a backend that keeps a stack of open ranges, `B` lies on top of
`A` after the two pushes, the two pops close `B` first and `A` second, and the stack ends as
it was before `A` was constructed. -/
theorem NvtxScope_nesting_is_LIFO (nvtx : Nvtx) (nameA nameB : String)
    (colorA colorB : uint32_t) (w : World) (s : RangeStack) :
    (NvtxScope.dtor (NvtxScope.dtor (NvtxScope.ctor nvtx nameB colorB
        (NvtxScope.ctor nvtx nameA colorA w)))).calls =
      w.calls ++ [BackendCall.nvtxRangePushEx (mkAttrib nvtx nameA colorA),
        BackendCall.nvtxRangePushEx (mkAttrib nvtx nameB colorB),
        BackendCall.nvtxRangePop, BackendCall.nvtxRangePop] ∧
      ((mkAttrib nvtx nameA colorA).message = nameA ∧
        (mkAttrib nvtx nameA colorA).color = colorA ∧
        (mkAttrib nvtx nameA colorA).colorType = nvtxColorType_t.NVTX_COLOR_ARGB) ∧
      ((mkAttrib nvtx nameB colorB).message = nameB ∧
        (mkAttrib nvtx nameB colorB).color = colorB ∧
        (mkAttrib nvtx nameB colorB).colorType = nvtxColorType_t.NVTX_COLOR_ARGB) ∧
      (NvtxScope.dtor (NvtxScope.dtor (NvtxScope.ctor nvtx nameB colorB
        (NvtxScope.ctor nvtx nameA colorA w)))).g_async_trace_map = w.g_async_trace_map ∧
      (RangeStack.replay s (callsSince w.calls.length
          (NvtxScope.ctor nvtx nameB colorB (NvtxScope.ctor nvtx nameA colorA w)).calls)).opened =
        mkAttrib nvtx nameB colorB :: mkAttrib nvtx nameA colorA :: s.opened ∧
      RangeStack.replay s (callsSince w.calls.length
          (NvtxScope.dtor (NvtxScope.dtor (NvtxScope.ctor nvtx nameB colorB
            (NvtxScope.ctor nvtx nameA colorA w)))).calls) =
        { opened := s.opened
          closed := s.closed ++ [mkAttrib nvtx nameB colorB, mkAttrib nvtx nameA colorA] } := by
  have h4 : (NvtxScope.dtor (NvtxScope.dtor (NvtxScope.ctor nvtx nameB colorB
        (NvtxScope.ctor nvtx nameA colorA w)))).calls =
      w.calls ++ [BackendCall.nvtxRangePushEx (mkAttrib nvtx nameA colorA),
        BackendCall.nvtxRangePushEx (mkAttrib nvtx nameB colorB),
        BackendCall.nvtxRangePop, BackendCall.nvtxRangePop] := by
    simp [NvtxScope.dtor, NvtxScope.ctor]
  have h2 : (NvtxScope.ctor nvtx nameB colorB (NvtxScope.ctor nvtx nameA colorA w)).calls =
      w.calls ++ [BackendCall.nvtxRangePushEx (mkAttrib nvtx nameA colorA),
        BackendCall.nvtxRangePushEx (mkAttrib nvtx nameB colorB)] := by
    simp [NvtxScope.ctor]
  refine ⟨h4, ⟨rfl, rfl, rfl⟩, ⟨rfl, rfl, rfl⟩, rfl, ?_, ?_⟩
  · rw [h2, callsSince_append]
    rfl
  · rw [h4, callsSince_append]
    simp [RangeStack.replay, RangeStack.call]

/-! ## Sequences of tracker calls -/

theorem run_nil (nvtx : Nvtx) (w : World) : run nvtx [] w = w := rfl

theorem run_append (nvtx : Nvtx) (ops more : List Op) (w : World) :
    run nvtx (ops ++ more) w = run nvtx more (run nvtx ops w) := by
  simp [run, List.foldl_append]

theorem run_concat (nvtx : Nvtx) (ops : List Op) (op : Op) (w : World) :
    run nvtx (ops ++ [op]) w = op.apply nvtx (run nvtx ops w) := by
  simp [run, List.foldl_append]

theorem apply_WF (nvtx : Nvtx) (op : Op) {w : World} (hwf : TraceMap.WF w.g_async_trace_map) :
    TraceMap.WF (op.apply nvtx w).g_async_trace_map := by
  cases op with
  | start name c => exact TRACE_IO_START_WF nvtx name c hwf
  | stop c => exact TRACE_IO_END_WF c hwf

theorem run_WF (nvtx : Nvtx) (ops : List Op) {w : World}
    (hwf : TraceMap.WF w.g_async_trace_map) :
    TraceMap.WF (run nvtx ops w).g_async_trace_map := by
  induction ops using List.reverseRecOn with
  | nil => exact hwf
  | append_singleton ops op ih => rw [run_concat]; exact apply_WF nvtx op ih

theorem find_apply_ne (nvtx : Nvtx) {op : Op} {cid : uint16_t} (h : op.cid ≠ cid) (w : World) :
    TraceMap.find cid (op.apply nvtx w).g_async_trace_map =
      TraceMap.find cid w.g_async_trace_map := by
  cases op with
  | start name c => exact find_after_START_ne nvtx name (fun e => h e.symm) w
  | stop c => exact find_after_END_ne (fun e => h e.symm) w

theorem isSome_find_apply_self (nvtx : Nvtx) (op : Op) {w : World}
    (hwf : TraceMap.WF w.g_async_trace_map) :
    (TraceMap.find op.cid (op.apply nvtx w).g_async_trace_map).isSome = op.isStart := by
  cases op with
  | start name c =>
    show (TraceMap.find c (TRACE_IO_START nvtx name c w).g_async_trace_map).isSome = true
    rw [find_after_START_self]; rfl
  | stop c =>
    show (TraceMap.find c (TRACE_IO_END c w).g_async_trace_map).isSome = false
    rw [find_after_END_self c hwf]; rfl

theorem callsOn_concat (cid : uint16_t) (ops : List Op) (op : Op) :
    callsOn cid (ops ++ [op]) = if op.cid = cid then callsOn cid ops ++ [op] else callsOn cid ops := by
  by_cases h : op.cid = cid <;> simp [callsOn, List.filter_append, h]

theorem lastOn_concat (cid : uint16_t) (ops : List Op) (op : Op) :
    lastOn cid (ops ++ [op]) = if op.cid = cid then some op else lastOn cid ops := by
  by_cases h : op.cid = cid <;> simp [lastOn, callsOn_concat, h]

theorem lastOn_callsOn (cid : uint16_t) (ops : List Op) :
    lastOn cid (callsOn cid ops) = lastOn cid ops := by
  simp [lastOn, callsOn]

/-- Whether `cid` has an entry after `ops`: the last call about `cid` decides, and without
one the initial state does. -/
theorem isSome_find_run (nvtx : Nvtx) (cid : uint16_t) (ops : List Op) {w : World}
    (hwf : TraceMap.WF w.g_async_trace_map) :
    (TraceMap.find cid (run nvtx ops w).g_async_trace_map).isSome =
      match lastOn cid ops with
      | some op => op.isStart
      | none => (TraceMap.find cid w.g_async_trace_map).isSome := by
  induction ops using List.reverseRecOn with
  | nil => simp [run, lastOn, callsOn]
  | append_singleton ops op ih =>
    rw [run_concat, lastOn_concat]
    by_cases h : op.cid = cid
    · subst h
      simp only [if_true]
      exact isSome_find_apply_self nvtx op (run_WF nvtx ops hwf)
    · simp only [h, if_false]
      rw [find_apply_ne nvtx h]
      exact ih

/-- C6: for every sequence of tracker calls run from the empty map and every key `cid`:
`cid` has an entry at the end exactly when the last call about `cid` is a start, and has none
exactly when that last call is an end or no call is about `cid`; whether `cid` has an entry
is the same as after running only the calls about `cid`; a call about another key never
changes what `cid` finds; and after every prefix of the sequence every key has at most one
entry. -/
theorem no_cross_key_interference (nvtx : Nvtx) (ops : List Op) (cid : uint16_t) :
    ((TraceMap.find cid (run nvtx ops World.init).g_async_trace_map).isSome = true ↔
        ∃ op, lastOn cid ops = some op ∧ op.isStart = true) ∧
      (TraceMap.find cid (run nvtx ops World.init).g_async_trace_map = none ↔
        lastOn cid ops = none ∨ ∃ op, lastOn cid ops = some op ∧ op.isStart = false) ∧
      (TraceMap.find cid (run nvtx ops World.init).g_async_trace_map).isSome =
        (TraceMap.find cid (run nvtx (callsOn cid ops) World.init).g_async_trace_map).isSome ∧
      (∀ (op : Op) (w : World), op.cid ≠ cid →
        TraceMap.find cid (op.apply nvtx w).g_async_trace_map =
          TraceMap.find cid w.g_async_trace_map) ∧
      (∀ (n : Nat) (other : uint16_t),
        TraceMap.count other (run nvtx (ops.take n) World.init).g_async_trace_map ≤ 1) := by
  have hinit : TraceMap.WF World.init.g_async_trace_map := TraceMap.WF_nil
  have hmain := isSome_find_run nvtx cid ops hinit
  have hsub := isSome_find_run nvtx cid (callsOn cid ops) hinit
  rw [lastOn_callsOn] at hsub
  refine ⟨?_, ?_, by rw [hmain, hsub], fun op w h => find_apply_ne nvtx h w,
    fun n other => TraceMap.count_le_one (run_WF nvtx _ hinit) other⟩
  · rw [hmain]
    cases hl : lastOn cid ops with
    | none => simp [World.init, TraceMap.find]
    | some op => simp
  · rw [← Option.not_isSome_iff_eq_none, hmain]
    cases hl : lastOn cid ops with
    | none => simp [World.init, TraceMap.find]
    | some op => simp

/-! ## Closing every range at most once -/

theorem concat_eq_append_cons {α : Type} {a pre post : List α} {c x : α}
    (h : a ++ [c] = pre ++ x :: post) :
    (post = [] ∧ a = pre ∧ c = x) ∨ ∃ L, post = L ++ [c] ∧ a = pre ++ x :: L := by
  rcases List.eq_nil_or_concat post with hp | ⟨L, b, hp⟩
  · subst hp
    have h2 : a ++ [c] = pre ++ [x] := h
    have := List.append_inj' h2 rfl
    exact Or.inl ⟨rfl, this.1, by simpa using this.2⟩
  · subst hp
    have h2 : a ++ [c] = (pre ++ x :: L) ++ [b] := by simpa using h
    have := List.append_inj' h2 rfl
    have hcb : c = b := by simpa using this.2
    exact Or.inr ⟨L, by rw [hcb, List.concat_eq_append], this.1⟩

theorem Bookkeeping_init : Bookkeeping World.init where
  wf := TraceMap.WF_nil
  stored_opened := by intro cid id h; simp [World.init, TraceMap.find] at h
  stored_not_closed := by intro cid id h; simp [World.init, TraceMap.find] at h
  stored_injective := by intro c1 c2 id h; simp [World.init, TraceMap.find] at h
  closed_nodup := by simp [World.init, closedIds]
  closed_opened := by intro id h; simp [World.init, closedIds] at h
  close_after_open := by intro pre post id h; simp [World.init] at h

theorem Bookkeeping_START (nvtx : Nvtx) (name : String) (cid : uint16_t) {w : World}
    (inv : Bookkeeping w) (hfresh : startId nvtx name w ∉ openedIds w.calls) :
    Bookkeeping (TRACE_IO_START nvtx name cid w) := by
  have hop : openedIds (TRACE_IO_START nvtx name cid w).calls =
      openedIds w.calls ++ [startId nvtx name w] := by
    rw [TRACE_IO_START_eq, openedIds_append]; rfl
  have hcl : closedIds (TRACE_IO_START nvtx name cid w).calls = closedIds w.calls := by
    rw [TRACE_IO_START_eq, closedIds_append]; simp [startCall, closedIds]
  have hfind : ∀ c x, TraceMap.find c (TRACE_IO_START nvtx name cid w).g_async_trace_map = some x →
      (c = cid ∧ x = startId nvtx name w) ∨
        (c ≠ cid ∧ TraceMap.find c w.g_async_trace_map = some x) := by
    intro c x h
    by_cases hc : c = cid
    · subst hc
      rw [find_after_START_self] at h
      exact Or.inl ⟨rfl, (Option.some.inj h).symm⟩
    · rw [find_after_START_ne nvtx name hc] at h
      exact Or.inr ⟨hc, h⟩
  constructor
  · exact TRACE_IO_START_WF nvtx name cid inv.wf
  · intro c x h
    rw [hop]
    rcases hfind c x h with ⟨_, hx⟩ | ⟨_, hx⟩
    · simp [hx]
    · exact List.mem_append_left _ (inv.stored_opened c x hx)
  · intro c x h
    rw [hcl]
    rcases hfind c x h with ⟨_, hx⟩ | ⟨_, hx⟩
    · rw [hx]
      exact fun hmem => hfresh (inv.closed_opened _ hmem)
    · exact inv.stored_not_closed c x hx
  · intro c1 c2 x h1 h2
    rcases hfind c1 x h1 with ⟨e1, hx1⟩ | ⟨n1, hx1⟩ <;>
      rcases hfind c2 x h2 with ⟨e2, hx2⟩ | ⟨n2, hx2⟩
    · rw [e1, e2]
    · exact absurd (hx1 ▸ inv.stored_opened c2 x hx2) hfresh
    · exact absurd (hx2 ▸ inv.stored_opened c1 x hx1) hfresh
    · exact inv.stored_injective c1 c2 x hx1 hx2
  · rw [hcl]; exact inv.closed_nodup
  · intro x hx
    rw [hcl] at hx
    rw [hop]
    exact List.mem_append_left _ (inv.closed_opened x hx)
  · intro pre post x h
    rw [TRACE_IO_START_eq] at h
    rcases concat_eq_append_cons h with ⟨_, _, hc⟩ | ⟨L, _, ha⟩
    · simp [startCall] at hc
    · exact inv.close_after_open pre L x ha

theorem Bookkeeping_END (cid : uint16_t) {w : World} (inv : Bookkeeping w) :
    Bookkeeping (TRACE_IO_END cid w) := by
  cases hf : TraceMap.find cid w.g_async_trace_map with
  | none => rw [TRACE_IO_END_of_none hf]; exact inv
  | some id =>
    have hop : openedIds (TRACE_IO_END cid w).calls = openedIds w.calls := by
      rw [TRACE_IO_END_of_some hf, openedIds_append]; simp [openedIds]
    have hcl : closedIds (TRACE_IO_END cid w).calls = closedIds w.calls ++ [id] := by
      rw [TRACE_IO_END_of_some hf, closedIds_append]; rfl
    have hfind : ∀ c x, TraceMap.find c (TRACE_IO_END cid w).g_async_trace_map = some x →
        c ≠ cid ∧ TraceMap.find c w.g_async_trace_map = some x := by
      intro c x h
      by_cases hc : c = cid
      · subst hc
        rw [find_after_END_self c inv.wf] at h
        exact absurd h (by simp)
      · rw [find_after_END_ne hc] at h
        exact ⟨hc, h⟩
    constructor
    · exact TRACE_IO_END_WF cid inv.wf
    · intro c x h
      rw [hop]
      exact inv.stored_opened c x (hfind c x h).2
    · intro c x h
      rw [hcl]
      obtain ⟨hc, hx⟩ := hfind c x h
      intro hmem
      rcases List.mem_append.mp hmem with hm | hm
      · exact inv.stored_not_closed c x hx hm
      · have hxid : x = id := by simpa using hm
        rw [hxid] at hx
        exact hc (inv.stored_injective c cid id hx hf)
    · intro c1 c2 x h1 h2
      exact inv.stored_injective c1 c2 x (hfind c1 x h1).2 (hfind c2 x h2).2
    · rw [hcl]
      refine List.Nodup.append inv.closed_nodup (List.nodup_singleton id) ?_
      intro x hx hx2
      have hxid : x = id := by simpa using hx2
      rw [hxid] at hx
      exact inv.stored_not_closed cid id hf hx
    · intro x hx
      rw [hcl] at hx
      rw [hop]
      rcases List.mem_append.mp hx with hm | hm
      · exact inv.closed_opened x hm
      · have hxid : x = id := by simpa using hm
        rw [hxid]
        exact inv.stored_opened cid id hf
    · intro pre post x h
      rw [TRACE_IO_END_of_some hf] at h
      rcases concat_eq_append_cons h with ⟨_, ha, hc⟩ | ⟨L, _, ha⟩
      · have hxid : id = x := by simpa using hc
        rw [← hxid, ← ha]
        exact inv.stored_opened cid id hf
      · exact inv.close_after_open pre L x ha

theorem openedIds_apply (nvtx : Nvtx) (op : Op) (w : World) :
    ∃ more, openedIds (op.apply nvtx w).calls = openedIds w.calls ++ more := by
  cases op with
  | start name c =>
    exact ⟨[startId nvtx name w], by
      show openedIds (TRACE_IO_START nvtx name c w).calls = _
      rw [TRACE_IO_START_eq, openedIds_append]; rfl⟩
  | stop c =>
    show ∃ more, openedIds (TRACE_IO_END c w).calls = _
    cases hf : TraceMap.find c w.g_async_trace_map with
    | none => exact ⟨[], by rw [TRACE_IO_END_of_none hf]; simp⟩
    | some id => exact ⟨[], by rw [TRACE_IO_END_of_some hf, openedIds_append]; simp [openedIds]⟩

theorem Bookkeeping_run (nvtx : Nvtx) (ops : List Op)
    (hfresh : (openedIds (run nvtx ops World.init).calls).Nodup) :
    Bookkeeping (run nvtx ops World.init) := by
  induction ops using List.reverseRecOn with
  | nil => exact Bookkeeping_init
  | append_singleton ops op ih =>
    rw [run_concat] at hfresh ⊢
    obtain ⟨more, hmore⟩ := openedIds_apply nvtx op (run nvtx ops World.init)
    have hprev : (openedIds (run nvtx ops World.init).calls).Nodup := by
      rw [hmore] at hfresh
      exact (List.nodup_append.mp hfresh).1
    have inv := ih hprev
    cases op with
    | start name c =>
      refine Bookkeeping_START nvtx name c inv ?_
      have h2 : (openedIds (TRACE_IO_START nvtx name c (run nvtx ops World.init)).calls).Nodup :=
        hfresh
      rw [TRACE_IO_START_eq, openedIds_append] at h2
      have hdisj := (List.nodup_append.mp h2).2.2
      intro hmem
      exact hdisj hmem (by simp [startCall, openedIds])
    | stop c => exact Bookkeeping_END c inv

/-- C10: take any sequence of tracker calls run from program start in which no
`nvtxRangeStartEx` call returns a range id that an earlier one returned.  Then at the end
(i) every id stored in the map was returned by an earlier `nvtxRangeStartEx` and has not
been passed to `nvtxRangeEnd`, and two keys never store the same id; (ii) no id was passed
to `nvtxRangeEnd` twice, and every `nvtxRangeEnd` call is for an id that a
`nvtxRangeStartEx` call before it returned. -/
theorem close_at_most_once (nvtx : Nvtx) (ops : List Op)
    (hfresh : (openedIds (run nvtx ops World.init).calls).Nodup) :
    (∀ cid id, TraceMap.find cid (run nvtx ops World.init).g_async_trace_map = some id →
        id ∈ openedIds (run nvtx ops World.init).calls ∧
        id ∉ closedIds (run nvtx ops World.init).calls) ∧
      (∀ c1 c2 id, TraceMap.find c1 (run nvtx ops World.init).g_async_trace_map = some id →
        TraceMap.find c2 (run nvtx ops World.init).g_async_trace_map = some id → c1 = c2) ∧
      (closedIds (run nvtx ops World.init).calls).Nodup ∧
      (∀ pre post id,
        (run nvtx ops World.init).calls = pre ++ BackendCall.nvtxRangeEnd id :: post →
        id ∈ openedIds pre) := by
  have inv := Bookkeeping_run nvtx ops hfresh
  exact ⟨fun cid id h => ⟨inv.stored_opened cid id h, inv.stored_not_closed cid id h⟩,
    inv.stored_injective, inv.closed_nodup, inv.close_after_open⟩

theorem close_at_most_once_witness :
    (openedIds (run sampleNvtx sampleOps World.init).calls).Nodup ∧
    ((∀ cid id,
        TraceMap.find cid (run sampleNvtx sampleOps World.init).g_async_trace_map = some id →
        id ∈ openedIds (run sampleNvtx sampleOps World.init).calls ∧
        id ∉ closedIds (run sampleNvtx sampleOps World.init).calls) ∧
      (∀ c1 c2 id,
        TraceMap.find c1 (run sampleNvtx sampleOps World.init).g_async_trace_map = some id →
        TraceMap.find c2 (run sampleNvtx sampleOps World.init).g_async_trace_map = some id →
        c1 = c2) ∧
      (closedIds (run sampleNvtx sampleOps World.init).calls).Nodup ∧
      (∀ pre post id,
        (run sampleNvtx sampleOps World.init).calls =
          pre ++ BackendCall.nvtxRangeEnd id :: post →
        id ∈ openedIds pre)) :=
  ⟨by decide, close_at_most_once sampleNvtx sampleOps (by decide)⟩

/-! ## One call, statement by statement -/

theorem callEvents_start (nvtx : Nvtx) (name : String) (cid : uint16_t) (w : World) :
    callEvents nvtx (Op.start name cid) w =
      [Event.lock, Event.backend (startCall nvtx name w),
        Event.mapAssign cid (startId nvtx name w), Event.unlock] := by
  simp [callEvents, runAlone, step, Thread.next, soloSys, startCall, startId]

theorem callResult_start (nvtx : Nvtx) (name : String) (cid : uint16_t) (w : World) :
    callResult nvtx (Op.start name cid) w =
      { world := TRACE_IO_START nvtx name cid w, g_async_trace_mtx := none,
        threads := [{ todo := [], pc := Pc.entry }] } := by
  simp [callResult, runAlone, step, Thread.next, soloSys, TRACE_IO_START]

theorem callEvents_stop_of_some {cid : uint16_t} {id : nvtxRangeId_t} {w : World}
    (nvtx : Nvtx) (h : TraceMap.find cid w.g_async_trace_map = some id) :
    callEvents nvtx (Op.stop cid) w =
      [Event.lock, Event.mapFind cid, Event.backend (BackendCall.nvtxRangeEnd id),
        Event.mapErase cid, Event.unlock] := by
  simp [callEvents, runAlone, step, Thread.next, soloSys, h]

theorem callEvents_stop_of_none {cid : uint16_t} {w : World}
    (nvtx : Nvtx) (h : TraceMap.find cid w.g_async_trace_map = none) :
    callEvents nvtx (Op.stop cid) w = [Event.lock, Event.mapFind cid, Event.unlock] := by
  simp [callEvents, runAlone, step, Thread.next, soloSys, h]

theorem callResult_stop (nvtx : Nvtx) (cid : uint16_t) (w : World) :
    callResult nvtx (Op.stop cid) w =
      { world := TRACE_IO_END cid w, g_async_trace_mtx := none,
        threads := [{ todo := [], pc := Pc.entry }] } := by
  cases h : TraceMap.find cid w.g_async_trace_map with
  | none => simp [callResult, runAlone, step, Thread.next, soloSys, TRACE_IO_END, h]
  | some id => simp [callResult, runAlone, step, Thread.next, soloSys, TRACE_IO_END, h]

/-- C7, as the code has it: the events of one `TRACE_IO_START(name, cid)` are, in order,
lock acquire, `nvtxRangeStartEx`, the store into the map, lock release, and they end in the
state `TRACE_IO_START` computes.  The `nvtxRangeStartEx` call is made while the mutex is
held: the critical section holds that one library call and the one map operation, and
neither a library call nor a map operation is made outside it. -/
theorem TRACE_IO_START_opens_under_lock (nvtx : Nvtx) (name : String) (cid : uint16_t)
    (w : World) :
    callEvents nvtx (Op.start name cid) w =
        [Event.lock, Event.backend (startCall nvtx name w),
          Event.mapAssign cid (startId nvtx name w), Event.unlock] ∧
      callsUnderLock false (callEvents nvtx (Op.start name cid) w) = [startCall nvtx name w] ∧
      callsOutsideLock false (callEvents nvtx (Op.start name cid) w) = [] ∧
      mapOpsUnderLock false (callEvents nvtx (Op.start name cid) w) =
        [Event.mapAssign cid (startId nvtx name w)] ∧
      mapOpsOutsideLock false (callEvents nvtx (Op.start name cid) w) = [] ∧
      (callResult nvtx (Op.start name cid) w).world = TRACE_IO_START nvtx name cid w := by
  rw [callEvents_start, callResult_start]
  simp [callsUnderLock, callsOutsideLock, mapOpsUnderLock, mapOpsOutsideLock, Event.touchesMap]

/-- C7 as claimed fails: in the events of `TRACE_IO_START("read", 7)` at program start the
`nvtxRangeStartEx` call lies between the lock acquire and the lock release, so the list of
library calls made under the lock is not empty. -/
theorem TRACE_IO_START_open_not_outside_lock :
    callEvents sampleNvtx (Op.start "read" 7) World.init =
        [Event.lock,
          Event.backend (BackendCall.nvtxRangeStartEx
            (mkAttrib sampleNvtx "read" GMT_Color.IO_FLYING) 1),
          Event.mapAssign 7 1, Event.unlock] ∧
      ¬ (callsUnderLock false (callEvents sampleNvtx (Op.start "read" 7) World.init) = []) ∧
      callsOutsideLock false (callEvents sampleNvtx (Op.start "read" 7) World.init) = [] := by
  refine ⟨by rfl, ?_, by rfl⟩
  rw [callEvents_start]
  simp [callsUnderLock]

/-! ## One statement of one thread -/

namespace Thread

theorem holds_mem_keys {t : Thread} {k : uint16_t} (h : t.holds k = true) : k ∈ t.keys := by
  obtain ⟨todo, pc⟩ := t
  rcases todo with _ | ⟨op, rest⟩
  · simp [holds] at h
  · cases op <;> cases pc <;> simp [holds] at h <;> simp [keys, Op.cid, h]

theorem next_keys {nvtx : Nvtx} {t t' : Thread} {w w' : World} {ev : Event}
    (h : t.next nvtx w = some (ev, t', w')) : ∀ k, k ∈ t'.keys → k ∈ t.keys := by
  obtain ⟨todo, pc⟩ := t
  rcases todo with _ | ⟨op, rest⟩
  · simp [next] at h
  · cases op with
    | start name c =>
      cases pc <;> simp [next] at h <;> obtain ⟨-, rfl, -⟩ := h <;> intro k hk <;>
        simp_all [keys]
    | stop c =>
      cases pc <;> try (cases hf : TraceMap.find c w.g_async_trace_map) <;>
        simp_all [next] <;> obtain ⟨-, rfl, -⟩ := h <;> intro k hk <;> simp_all [keys]

end Thread

theorem isPairs_pairs (p : List (String × uint16_t)) : isPairs (pairs p) = true := by
  induction p with
  | nil => rfl
  | cons e rest ih =>
    obtain ⟨name, c⟩ := e
    simp [pairs, isPairs, ih]

namespace Thread

theorem next_pc {nvtx : Nvtx} {t t' : Thread} {w w' : World} {ev : Event}
    (h : t.next nvtx w = some (ev, t', w')) :
    (ev = Event.lock ∧ t.pc = Pc.entry ∧ t'.pc ≠ Pc.entry) ∨
      (ev = Event.unlock ∧ t.pc ≠ Pc.entry ∧ t'.pc = Pc.entry) ∨
      (ev ≠ Event.lock ∧ ev ≠ Event.unlock ∧ t.pc ≠ Pc.entry ∧ t'.pc ≠ Pc.entry) := by
  obtain ⟨todo, pc⟩ := t
  rcases todo with _ | ⟨op, rest⟩
  · simp [next] at h
  · cases op with
    | start name c =>
      cases pc <;> simp [next] at h <;> obtain ⟨rfl, rfl, -⟩ := h <;> simp
    | stop c =>
      cases pc <;> try (cases hf : TraceMap.find c w.g_async_trace_map) <;>
        simp_all [next] <;> obtain ⟨rfl, rfl, -⟩ := h <;> simp

theorem next_WF {nvtx : Nvtx} {t t' : Thread} {w w' : World} {ev : Event}
    (h : t.next nvtx w = some (ev, t', w')) (hwf : TraceMap.WF w.g_async_trace_map) :
    TraceMap.WF w'.g_async_trace_map := by
  obtain ⟨todo, pc⟩ := t
  rcases todo with _ | ⟨op, rest⟩
  · simp [next] at h
  · cases op with
    | start name c =>
      cases pc <;> simp [next] at h <;> obtain ⟨-, -, rfl⟩ := h <;>
        first | exact hwf | exact TraceMap.WF_assign _ _ hwf
    | stop c =>
      cases pc <;> try (cases hf : TraceMap.find c w.g_async_trace_map) <;>
        simp_all [next] <;> obtain ⟨-, -, rfl⟩ := h <;>
        first | exact hwf | exact TraceMap.WF_erase _ hwf

theorem next_budget {nvtx : Nvtx} {t t' : Thread} {w w' : World} {ev : Event}
    (h : t.next nvtx w = some (ev, t', w')) : t'.budget < t.budget := by
  obtain ⟨todo, pc⟩ := t
  rcases todo with _ | ⟨op, rest⟩
  · simp [next] at h
  · cases op with
    | start name c =>
      cases pc <;> simp [next] at h <;> obtain ⟨-, rfl, -⟩ := h <;>
        first
        | (simp [budget]; done)
        | (cases rest <;> simp [budget] <;> omega)
    | stop c =>
      cases pc <;> try (cases hf : TraceMap.find c w.g_async_trace_map) <;>
        simp_all [next] <;> obtain ⟨-, rfl, -⟩ := h <;>
        first
        | (simp [budget]; done)
        | (cases rest <;> simp [budget] <;> omega)

theorem next_isSome (nvtx : Nvtx) {t : Thread} (w : World) (hs : t.shaped = true)
    (hne : t.todo ≠ []) : (t.next nvtx w).isSome = true := by
  obtain ⟨todo, pc⟩ := t
  rcases todo with _ | ⟨op, rest⟩
  · exact absurd rfl hne
  · cases op with
    | start name c => cases pc <;> simp_all [next, shaped]
    | stop c =>
      cases pc <;> try (cases hf : TraceMap.find c w.g_async_trace_map) <;>
        simp_all [next, shaped]

end Thread

namespace Thread

theorem next_shaped {nvtx : Nvtx} {t t' : Thread} {w w' : World} {ev : Event}
    (h : t.next nvtx w = some (ev, t', w')) (hs : t.shaped = true)
    (hh : ∀ k, t.holds k = true → (TraceMap.find k w.g_async_trace_map).isSome = true) :
    t'.shaped = true := by
  obtain ⟨todo, pc⟩ := t
  rcases todo with _ | ⟨op, rest⟩
  · simp [next] at h
  · cases op with
    | start name c =>
      cases pc <;> simp [next] at h <;> obtain ⟨-, rfl, -⟩ := h
      all_goals first
        | (simp [shaped] at hs; done)
        | (simpa [shaped] using hs; done)
        | skip
      rcases rest with _ | ⟨op2, rest2⟩
      · simp [shaped, isPairs] at hs
      · cases op2 with
        | start n2 c2 => simp [shaped, isPairs] at hs
        | stop c2 =>
          simp [shaped, isPairs] at hs
          simpa [shaped] using hs.2
    | stop c =>
      cases pc
      case locked =>
        cases hf : TraceMap.find c w.g_async_trace_map with
        | none =>
          have := hh c (by simp [holds])
          simp [hf] at this
        | some id =>
          simp [next, hf] at h
          obtain ⟨-, rfl, -⟩ := h
          simpa [shaped] using hs
      case leaving =>
        simp [next] at h
        obtain ⟨-, rfl, -⟩ := h
        simp [shaped] at hs
        rcases rest with _ | ⟨op2, rest2⟩
        · rfl
        · cases op2 with
          | start n2 c2 => simpa [shaped] using hs
          | stop c2 => simp [isPairs] at hs
      all_goals (simp [next] at h)
      all_goals (obtain ⟨-, rfl, -⟩ := h)
      all_goals first
        | (simp [shaped] at hs; done)
        | (simpa [shaped] using hs; done)

end Thread

namespace Thread

theorem next_present {nvtx : Nvtx} {t t' : Thread} {w w' : World} {ev : Event}
    (h : t.next nvtx w = some (ev, t', w')) (hwf : TraceMap.WF w.g_async_trace_map)
    (hs : t.shaped = true)
    (hh : ∀ k, t.holds k = true → (TraceMap.find k w.g_async_trace_map).isSome = true)
    (k : uint16_t) :
    (TraceMap.find k w'.g_async_trace_map).isSome =
      if t.holds k = t'.holds k then (TraceMap.find k w.g_async_trace_map).isSome
      else t'.holds k := by
  obtain ⟨todo, pc⟩ := t
  rcases todo with _ | ⟨op, rest⟩
  · simp [next] at h
  · cases op with
    | start name c =>
      cases pc
      case opened id =>
        simp [next] at h
        obtain ⟨-, rfl, rfl⟩ := h
        by_cases hk : c = k
        · subst hk
          simp [holds, TraceMap.find_assign_self]
        · have hk2 : k ≠ c := fun e => hk e.symm
          simp [holds, hk, TraceMap.find_assign_ne hk2]
      case leaving =>
        simp [next] at h
        obtain ⟨-, rfl, rfl⟩ := h
        rcases rest with _ | ⟨op2, rest2⟩
        · simp [shaped, isPairs] at hs
        · cases op2 with
          | start n2 c2 => simp [shaped, isPairs] at hs
          | stop c2 =>
            simp [shaped, isPairs] at hs
            simp [holds, hs.1]
      all_goals (simp [next] at h)
      all_goals (obtain ⟨-, rfl, rfl⟩ := h)
      all_goals first
        | (simp [shaped] at hs; done)
        | (simp [holds]; done)
    | stop c =>
      cases pc
      case locked =>
        cases hf : TraceMap.find c w.g_async_trace_map with
        | none =>
          have := hh c (by simp [holds])
          simp [hf] at this
        | some id =>
          simp [next, hf] at h
          obtain ⟨-, rfl, rfl⟩ := h
          simp [holds]
      case closed =>
        simp [next] at h
        obtain ⟨-, rfl, rfl⟩ := h
        by_cases hk : c = k
        · subst hk
          simp [holds, TraceMap.find_erase_self hwf]
        · have hk2 : k ≠ c := fun e => hk e.symm
          simp [holds, hk, TraceMap.find_erase_ne hk2]
      case leaving =>
        simp [next] at h
        obtain ⟨-, rfl, rfl⟩ := h
        simp [shaped] at hs
        rcases rest with _ | ⟨op2, rest2⟩
        · simp [holds]
        · cases op2 with
          | start n2 c2 => simp [holds]
          | stop c2 => simp [isPairs] at hs
      all_goals (simp [next] at h)
      all_goals (obtain ⟨-, rfl, rfl⟩ := h)
      all_goals first
        | (simp [shaped] at hs; done)
        | (simp [holds]; done)

end Thread

/-! ## One step of the system -/

theorem step_spec {nvtx : Nvtx} {i : Nat} {s s' : Sys} {ev : Event}
    (h : step nvtx i s = some (ev, s')) :
    ∃ t t', s.threads[i]? = some t ∧ t.next nvtx s.world = some (ev, t', s'.world) ∧
      s'.threads = s.threads.set i t' ∧
      ((ev = Event.lock ∧ s.g_async_trace_mtx = none ∧ s'.g_async_trace_mtx = some i) ∨
        (ev = Event.unlock ∧ s'.g_async_trace_mtx = none) ∨
        (ev ≠ Event.lock ∧ ev ≠ Event.unlock ∧
          s'.g_async_trace_mtx = s.g_async_trace_mtx)) := by
  unfold step at h
  cases ht : s.threads[i]? with
  | none => simp [ht] at h
  | some t =>
    simp only [ht] at h
    cases hn : t.next nvtx s.world with
    | none => simp [hn] at h
    | some r =>
      obtain ⟨e, t', w'⟩ := r
      simp only [hn] at h
      refine ⟨t, t', rfl, ?_⟩
      cases e with
      | lock =>
        cases hm : s.g_async_trace_mtx with
        | some j => simp [hm] at h
        | none =>
          simp [hm] at h
          obtain ⟨rfl, rfl⟩ := h
          exact ⟨hn, rfl, Or.inl ⟨rfl, rfl, rfl⟩⟩
      | unlock =>
        simp at h
        obtain ⟨rfl, rfl⟩ := h
        exact ⟨hn, rfl, Or.inr (Or.inl ⟨rfl, rfl⟩)⟩
      | backend c =>
        simp at h
        obtain ⟨rfl, rfl⟩ := h
        exact ⟨hn, rfl, Or.inr (Or.inr ⟨by simp, by simp, rfl⟩)⟩
      | mapFind c =>
        simp at h
        obtain ⟨rfl, rfl⟩ := h
        exact ⟨hn, rfl, Or.inr (Or.inr ⟨by simp, by simp, rfl⟩)⟩
      | mapAssign c id =>
        simp at h
        obtain ⟨rfl, rfl⟩ := h
        exact ⟨hn, rfl, Or.inr (Or.inr ⟨by simp, by simp, rfl⟩)⟩
      | mapErase c =>
        simp at h
        obtain ⟨rfl, rfl⟩ := h
        exact ⟨hn, rfl, Or.inr (Or.inr ⟨by simp, by simp, rfl⟩)⟩

theorem step_isSome {nvtx : Nvtx} {i : Nat} {s : Sys} {t t' : Thread} {w' : World}
    {ev : Event} (ht : s.threads[i]? = some t) (hn : t.next nvtx s.world = some (ev, t', w'))
    (hfree : ev = Event.lock → s.g_async_trace_mtx = none) :
    (step nvtx i s).isSome = true := by
  unfold step
  simp only [ht, hn]
  cases ev with
  | lock => simp [hfree rfl]
  | unlock => simp
  | backend c => simp
  | mapFind c => simp
  | mapAssign c id => simp
  | mapErase c => simp

theorem getElem?_set_of_some {l : List Thread} {i j : Nat} {t t' tj : Thread}
    (ht : l[i]? = some t) (h : (l.set i t')[j]? = some tj) :
    (j = i ∧ tj = t') ∨ (j ≠ i ∧ l[j]? = some tj) := by
  have hi : i < l.length := by
    rcases List.getElem?_eq_some_iff.mp ht with ⟨hi, -⟩
    exact hi
  rw [List.getElem?_set] at h
  by_cases hij : i = j
  · subst hij
    simp [hi] at h
    exact Or.inl ⟨rfl, h.symm⟩
  · simp [hij] at h
    exact Or.inr ⟨fun e => hij e.symm, h⟩

theorem getElem?_set_same {l : List Thread} {i : Nat} {t t' : Thread}
    (ht : l[i]? = some t) : (l.set i t')[i]? = some t' := by
  have hi : i < l.length := by
    rcases List.getElem?_eq_some_iff.mp ht with ⟨hi, -⟩
    exact hi
  exact List.getElem?_set_self hi

/-- How a step of thread `i` moves the mutex and the thread's program point. -/
theorem step_mutex_cases {nvtx : Nvtx} {i : Nat} {s s' : Sys} {ev : Event} {t t' : Thread}
    (hn : t.next nvtx s.world = some (ev, t', s'.world))
    (hm : (ev = Event.lock ∧ s.g_async_trace_mtx = none ∧ s'.g_async_trace_mtx = some i) ∨
        (ev = Event.unlock ∧ s'.g_async_trace_mtx = none) ∨
        (ev ≠ Event.lock ∧ ev ≠ Event.unlock ∧
          s'.g_async_trace_mtx = s.g_async_trace_mtx))
    (hmi : t.pc ≠ Pc.entry → s.g_async_trace_mtx = some i) :
    (ev = Event.lock ∧ s.g_async_trace_mtx = none ∧ s'.g_async_trace_mtx = some i ∧
        t.pc = Pc.entry ∧ t'.pc ≠ Pc.entry) ∨
      (ev = Event.unlock ∧ s.g_async_trace_mtx = some i ∧ s'.g_async_trace_mtx = none ∧
        t.pc ≠ Pc.entry ∧ t'.pc = Pc.entry) ∨
      (ev ≠ Event.lock ∧ ev ≠ Event.unlock ∧ s.g_async_trace_mtx = some i ∧
        s'.g_async_trace_mtx = some i ∧ t.pc ≠ Pc.entry ∧ t'.pc ≠ Pc.entry) := by
  rcases Thread.next_pc hn with ⟨hev, hp, hp'⟩ | ⟨hev, hp, hp'⟩ | ⟨hev1, hev2, hp, hp'⟩
  · rcases hm with ⟨-, hfree, hm'⟩ | ⟨hev', -⟩ | ⟨hev', -, -⟩
    · exact Or.inl ⟨hev, hfree, hm', hp, hp'⟩
    · rw [hev] at hev'; cases hev'
    · exact absurd hev hev'
  · rcases hm with ⟨hev', -, -⟩ | ⟨-, hm'⟩ | ⟨-, hev', -⟩
    · rw [hev] at hev'; cases hev'
    · exact Or.inr (Or.inl ⟨hev, hmi hp, hm', hp, hp'⟩)
    · exact absurd hev hev'
  · rcases hm with ⟨hev', -, -⟩ | ⟨hev', -⟩ | ⟨-, -, hm'⟩
    · exact absurd hev' hev1
    · exact absurd hev' hev2
    · exact Or.inr (Or.inr ⟨hev1, hev2, hmi hp, by rw [hm', hmi hp], hp, hp'⟩)

theorem SysInv_step {nvtx : Nvtx} {i : Nat} {s s' : Sys} {ev : Event} (inv : SysInv s)
    (h : step nvtx i s = some (ev, s')) : SysInv s' := by
  obtain ⟨t, t', ht, hn, hth, hm⟩ := step_spec h
  have hholds : ∀ k, t.holds k = true →
      (TraceMap.find k s.world.g_async_trace_map).isSome = true :=
    fun k hk => (inv.present k).mpr ⟨i, t, ht, hk⟩
  have hold : ∀ j tj, s'.threads[j]? = some tj →
      (j = i ∧ tj = t') ∨ (j ≠ i ∧ s.threads[j]? = some tj) := by
    intro j tj hj
    rw [hth] at hj
    exact getElem?_set_of_some ht hj
  have hnew : s'.threads[i]? = some t' := by
    rw [hth]
    exact getElem?_set_same ht
  have hother : ∀ j, j ≠ i → s'.threads[j]? = s.threads[j]? := by
    intro j hj
    rw [hth]
    exact List.getElem?_set_ne (fun e => hj e.symm)
  have hilt : i < s.threads.length := by
    rcases List.getElem?_eq_some_iff.mp ht with ⟨hi, -⟩
    exact hi
  have hcases := step_mutex_cases hn hm (inv.mutex i t ht).mpr
  constructor
  · exact Thread.next_WF hn inv.wf
  · intro j hj
    rw [hth, List.length_set]
    rcases hcases with ⟨-, -, hm', -, -⟩ | ⟨-, -, hm', -, -⟩ | ⟨-, -, -, hm', -, -⟩
    · rw [hm'] at hj
      rw [← Option.some.inj hj]
      exact hilt
    · rw [hm'] at hj
      cases hj
    · rw [hm'] at hj
      rw [← Option.some.inj hj]
      exact hilt
  · intro j tj hj
    rcases hold j tj hj with ⟨hji, htj⟩ | ⟨hji, hjold⟩
    · rw [hji, htj]
      rcases hcases with ⟨-, -, hm', -, hp'⟩ | ⟨-, -, hm', -, hp'⟩ | ⟨-, -, -, hm', -, hp'⟩
      · rw [hm']
        exact ⟨fun _ => hp', fun _ => rfl⟩
      · rw [hm']
        exact ⟨fun e => Option.noConfusion e, fun hne => absurd hp' hne⟩
      · rw [hm']
        exact ⟨fun _ => hp', fun _ => rfl⟩
    · have hmj := inv.mutex j tj hjold
      have hentry : s.g_async_trace_mtx ≠ some j → tj.pc = Pc.entry := by
        intro hne
        by_contra hpc
        exact hne (hmj.mpr hpc)
      have hij : (some i : Option Nat) ≠ some j := fun e => hji (Option.some.inj e).symm
      rcases hcases with ⟨-, hfree, hm', -, -⟩ | ⟨-, hheld, hm', -, -⟩ | ⟨-, -, hheld, hm', -, -⟩
      · have hp : tj.pc = Pc.entry := hentry (by rw [hfree]; simp)
        rw [hm']
        exact ⟨fun e => absurd e hij, fun hne => absurd hp hne⟩
      · have hp : tj.pc = Pc.entry := hentry (by rw [hheld]; exact hij)
        rw [hm']
        exact ⟨fun e => Option.noConfusion e, fun hne => absurd hp hne⟩
      · rw [hm', ← hheld]
        exact hmj
  · intro j tj hj
    rcases hold j tj hj with ⟨-, htj⟩ | ⟨-, hjold⟩
    · rw [htj]
      exact Thread.next_shaped hn (inv.shaped i t ht) hholds
    · exact inv.shaped j tj hjold
  · intro j1 j2 t1 t2 hne h1 h2 k hk1 hk2
    rcases hold j1 t1 h1 with ⟨e1, et1⟩ | ⟨n1, o1⟩ <;>
      rcases hold j2 t2 h2 with ⟨e2, et2⟩ | ⟨n2, o2⟩
    · exact hne (e1.trans e2.symm)
    · rw [et1] at hk1
      exact inv.disjoint i j2 t t2 (fun e => n2 e.symm) ht o2 k (Thread.next_keys hn k hk1) hk2
    · rw [et2] at hk2
      exact inv.disjoint j1 i t1 t n1 o1 ht k hk1 (Thread.next_keys hn k hk2)
    · exact inv.disjoint j1 j2 t1 t2 hne o1 o2 k hk1 hk2
  · intro k
    have hp := Thread.next_present hn inv.wf (inv.shaped i t ht) hholds k
    constructor
    · intro hk
      rw [hp] at hk
      by_cases hsame : t.holds k = t'.holds k
      · rw [if_pos hsame] at hk
        obtain ⟨j, tj, hj, hjk⟩ := (inv.present k).mp hk
        by_cases hji : j = i
        · rw [hji, ht] at hj
          have htj : t = tj := Option.some.inj hj
          refine ⟨i, t', hnew, ?_⟩
          rw [← hsame, htj]
          exact hjk
        · exact ⟨j, tj, by rw [hother j hji]; exact hj, hjk⟩
      · rw [if_neg hsame] at hk
        exact ⟨i, t', hnew, hk⟩
    · rintro ⟨j, tj, hj, hjk⟩
      rw [hp]
      rcases hold j tj hj with ⟨-, htj⟩ | ⟨hji, hjold⟩
      · rw [htj] at hjk
        by_cases hsame : t.holds k = t'.holds k
        · rw [if_pos hsame]
          exact hholds k (by rw [hsame]; exact hjk)
        · rw [if_neg hsame]
          exact hjk
      · have hkold := (inv.present k).mpr ⟨j, tj, hjold, hjk⟩
        by_cases hsame : t.holds k = t'.holds k
        · rw [if_pos hsame]
          exact hkold
        · rw [if_neg hsame]
          have hkt : k ∈ t.keys := by
            cases h1 : t.holds k with
            | true => exact Thread.holds_mem_keys h1
            | false =>
              cases h3 : t'.holds k with
              | true => exact Thread.next_keys hn k (Thread.holds_mem_keys h3)
              | false => exact absurd (h1.trans h3.symm) hsame
          exact absurd (Thread.holds_mem_keys hjk)
            (inv.disjoint i j t tj (fun e => hji e.symm) ht hjold k hkt)

/-! ## Executions of threads that make start/end pairs -/

theorem shaped_pairs_entry (p : List (String × uint16_t)) :
    Thread.shaped { todo := pairs p, pc := Pc.entry } = true := by
  rcases p with _ | ⟨e, rest⟩
  · rfl
  · obtain ⟨name, c⟩ := e
    have := isPairs_pairs ((name, c) :: rest)
    simpa [Thread.shaped, pairs] using this

theorem holds_pairs_entry (p : List (String × uint16_t)) (k : uint16_t) :
    Thread.holds { todo := pairs p, pc := Pc.entry } k = false := by
  rcases p with _ | ⟨e, rest⟩
  · rfl
  · obtain ⟨name, c⟩ := e
    simp [Thread.holds, pairs]

theorem mem_keys_pairs {p : List (String × uint16_t)} {k : uint16_t}
    (h : k ∈ Thread.keys { todo := pairs p, pc := Pc.entry }) : ∃ e ∈ p, e.2 = k := by
  induction p with
  | nil => simp [Thread.keys, pairs] at h
  | cons e rest ih =>
    obtain ⟨name, c⟩ := e
    simp only [Thread.keys, pairs, List.map_cons, Op.cid, List.mem_cons] at h
    rcases h with h | h | h
    · exact ⟨(name, c), by simp, h.symm⟩
    · exact ⟨(name, c), by simp, h.symm⟩
    · obtain ⟨e, he, hek⟩ := ih h
      exact ⟨e, List.mem_cons_of_mem _ he, hek⟩

theorem initSys_thread {progs : List (List (String × uint16_t))} {i : Nat} {t : Thread}
    (h : (initSys progs).threads[i]? = some t) :
    ∃ p, progs[i]? = some p ∧ t = { todo := pairs p, pc := Pc.entry } := by
  simp only [initSys, List.getElem?_map, Option.map_eq_some'] at h
  obtain ⟨p, hp, ht⟩ := h
  exact ⟨p, hp, ht.symm⟩

theorem DisjointKeys_getElem? {progs : List (List (String × uint16_t))}
    (hd : DisjointKeys progs) {i j : Nat} {p q : List (String × uint16_t)} (hij : i ≠ j)
    (hp : progs[i]? = some p) (hq : progs[j]? = some q) :
    ∀ e ∈ p, ∀ f ∈ q, e.2 ≠ f.2 := by
  obtain ⟨hi, hpi⟩ := List.getElem?_eq_some_iff.mp hp
  obtain ⟨hj, hqj⟩ := List.getElem?_eq_some_iff.mp hq
  have hpw := List.pairwise_iff_getElem.mp hd
  rcases Nat.lt_or_gt_of_ne hij with hlt | hgt
  · have := hpw i j hi hj hlt
    rw [hpi, hqj] at this
    exact this
  · have := hpw j i hj hi hgt
    rw [hpi, hqj] at this
    intro e he f hf hef
    exact this f hf e he hef.symm

theorem SysInv_init {progs : List (List (String × uint16_t))} (hd : DisjointKeys progs) :
    SysInv (initSys progs) where
  wf := TraceMap.WF_nil
  holder := by intro i h; simp [initSys] at h
  mutex := by
    intro i t h
    obtain ⟨p, -, rfl⟩ := initSys_thread h
    simp [initSys]
  shaped := by
    intro i t h
    obtain ⟨p, -, rfl⟩ := initSys_thread h
    exact shaped_pairs_entry p
  disjoint := by
    intro i j ti tj hij hi hj k hki hkj
    obtain ⟨p, hp, rfl⟩ := initSys_thread hi
    obtain ⟨q, hq, rfl⟩ := initSys_thread hj
    obtain ⟨e, he, hek⟩ := mem_keys_pairs hki
    obtain ⟨f, hf, hfk⟩ := mem_keys_pairs hkj
    exact DisjointKeys_getElem? hd hij hp hq e he f hf (hek.trans hfk.symm)
  present := by
    intro k
    constructor
    · intro h
      simp [initSys, World.init, TraceMap.find] at h
    · rintro ⟨i, t, ht, hk⟩
      obtain ⟨p, -, rfl⟩ := initSys_thread ht
      rw [holds_pairs_entry] at hk
      cases hk

theorem exec_nil (nvtx : Nvtx) (s : Sys) : exec nvtx [] s = some ([], s) := rfl

theorem exec_cons_eq_some {nvtx : Nvtx} {i : Nat} {sched : List Nat} {s s' : Sys}
    {tr : List (Nat × Event)} (h : exec nvtx (i :: sched) s = some (tr, s')) :
    ∃ ev s1 tr1, step nvtx i s = some (ev, s1) ∧ exec nvtx sched s1 = some (tr1, s') ∧
      tr = (i, ev) :: tr1 := by
  simp only [exec] at h
  cases hs : step nvtx i s with
  | none => simp [hs] at h
  | some r =>
    obtain ⟨ev, s1⟩ := r
    simp only [hs] at h
    cases he : exec nvtx sched s1 with
    | none => simp [he] at h
    | some r2 =>
      obtain ⟨tr1, s2⟩ := r2
      simp only [he, Option.some.injEq, Prod.mk.injEq] at h
      obtain ⟨h1, h2⟩ := h
      exact ⟨ev, s1, tr1, rfl, by rw [← h2]; exact he, h1.symm⟩

theorem exec_cons_of_step {nvtx : Nvtx} {i : Nat} {sched : List Nat} {s s1 s' : Sys}
    {ev : Event} {tr1 : List (Nat × Event)} (hs : step nvtx i s = some (ev, s1))
    (he : exec nvtx sched s1 = some (tr1, s')) :
    exec nvtx (i :: sched) s = some ((i, ev) :: tr1, s') := by
  simp [exec, hs, he]

theorem SysInv_exec {nvtx : Nvtx} {sched : List Nat} {s s' : Sys} {tr : List (Nat × Event)}
    (inv : SysInv s) (h : exec nvtx sched s = some (tr, s')) : SysInv s' := by
  induction sched generalizing s tr with
  | nil =>
    simp only [exec, Option.some.injEq, Prod.mk.injEq] at h
    rw [← h.2]
    exact inv
  | cons i sched ih =>
    obtain ⟨ev, s1, tr1, hs, he, -⟩ := exec_cons_eq_some h
    exact ih (SysInv_step inv hs) he

theorem sum_map_set_lt (f : Thread → Nat) {l : List Thread} {i : Nat} {t t' : Thread}
    (ht : l[i]? = some t) (hlt : f t' < f t) :
    ((l.set i t').map f).sum < (l.map f).sum := by
  induction l generalizing i with
  | nil => simp at ht
  | cons a rest ih =>
    cases i with
    | zero =>
      simp only [List.getElem?_cons_zero, Option.some.injEq] at ht
      subst ht
      simp only [List.set_cons_zero, List.map_cons, List.sum_cons]
      omega
    | succ n =>
      simp only [List.getElem?_cons_succ] at ht
      have := ih ht
      simp only [List.set_cons_succ, List.map_cons, List.sum_cons]
      omega

theorem step_budget {nvtx : Nvtx} {i : Nat} {s s' : Sys} {ev : Event}
    (h : step nvtx i s = some (ev, s')) : s'.budget < s.budget := by
  obtain ⟨t, t', ht, hn, hth, -⟩ := step_spec h
  unfold Sys.budget
  rw [hth]
  exact sum_map_set_lt Thread.budget ht (Thread.next_budget hn)

theorem exec_budget {nvtx : Nvtx} {sched : List Nat} {s s' : Sys} {tr : List (Nat × Event)}
    (h : exec nvtx sched s = some (tr, s')) : sched.length + s'.budget ≤ s.budget := by
  induction sched generalizing s tr with
  | nil =>
    simp only [exec, Option.some.injEq, Prod.mk.injEq] at h
    rw [← h.2]
    simp
  | cons i sched ih =>
    obtain ⟨ev, s1, tr1, hs, he, -⟩ := exec_cons_eq_some h
    have h1 := step_budget hs
    have h2 := ih he
    simp only [List.length_cons]
    omega

/-- How a step of thread `i` moves the mutex, in a state that satisfies the invariant. -/
theorem step_mutex {nvtx : Nvtx} {i : Nat} {s s' : Sys} {ev : Event} (inv : SysInv s)
    (h : step nvtx i s = some (ev, s')) :
    (ev = Event.lock ∧ s.g_async_trace_mtx = none ∧ s'.g_async_trace_mtx = some i) ∨
      (ev = Event.unlock ∧ s.g_async_trace_mtx = some i ∧ s'.g_async_trace_mtx = none) ∨
      (ev ≠ Event.lock ∧ ev ≠ Event.unlock ∧ s.g_async_trace_mtx = some i ∧
        s'.g_async_trace_mtx = some i) := by
  obtain ⟨t, t', ht, hn, -, hm⟩ := step_spec h
  rcases step_mutex_cases hn hm (inv.mutex i t ht).mpr with
    ⟨h1, h2, h3, -, -⟩ | ⟨h1, h2, h3, -, -⟩ | ⟨h1, h2, h3, h4, -, -⟩
  · exact Or.inl ⟨h1, h2, h3⟩
  · exact Or.inr (Or.inl ⟨h1, h2, h3⟩)
  · exact Or.inr (Or.inr ⟨h1, h2, h3, h4⟩)

theorem exec_lockDiscipline {nvtx : Nvtx} {sched : List Nat} {s s' : Sys}
    {tr : List (Nat × Event)} (inv : SysInv s) (h : exec nvtx sched s = some (tr, s')) :
    lockDiscipline s.g_async_trace_mtx tr = true := by
  induction sched generalizing s tr with
  | nil =>
    simp only [exec, Option.some.injEq, Prod.mk.injEq] at h
    rw [← h.1]
    rfl
  | cons i sched ih =>
    obtain ⟨ev, s1, tr1, hs, he, htr⟩ := exec_cons_eq_some h
    have ih1 := ih (SysInv_step inv hs) he
    rw [htr]
    rcases step_mutex inv hs with ⟨h1, h2, h3⟩ | ⟨h1, h2, h3⟩ | ⟨h1, h2, h3, h4⟩
    · rw [h3] at ih1
      rw [h1, h2]
      simpa [lockDiscipline] using ih1
    · rw [h3] at ih1
      rw [h1, h2]
      simpa [lockDiscipline] using ih1
    · rw [h4] at ih1
      rw [h3]
      cases ev with
      | lock => exact absurd rfl h1
      | unlock => exact absurd rfl h2
      | backend c => simpa [lockDiscipline] using ih1
      | mapFind c => simpa [lockDiscipline] using ih1
      | mapAssign c id => simpa [lockDiscipline] using ih1
      | mapErase c => simpa [lockDiscipline] using ih1

theorem progress (nvtx : Nvtx) {s : Sys} (inv : SysInv s) (hnd : ¬ allDone s) :
    ∃ i, (step nvtx i s).isSome = true := by
  cases hm : s.g_async_trace_mtx with
  | none =>
    simp only [allDone, not_forall] at hnd
    obtain ⟨t, ht, hne⟩ := hnd
    obtain ⟨i, hi⟩ := List.getElem?_of_mem ht
    have hsome := Thread.next_isSome nvtx s.world (inv.shaped i t hi) hne
    obtain ⟨r, hr⟩ := Option.isSome_iff_exists.mp hsome
    obtain ⟨ev, t', w'⟩ := r
    exact ⟨i, step_isSome hi hr (fun _ => hm)⟩
  | some i =>
    have hi := inv.holder i hm
    have hti : s.threads[i]? = some s.threads[i] := List.getElem?_eq_getElem hi
    have hpc := (inv.mutex i _ hti).mp hm
    have hshape := inv.shaped i _ hti
    have hne : (s.threads[i]).todo ≠ [] := by
      intro he
      have h2 := hshape
      unfold Thread.shaped at h2
      rw [he] at h2
      cases hp : (s.threads[i]).pc <;> simp [hp] at h2 hpc
    have hsome := Thread.next_isSome nvtx s.world hshape hne
    obtain ⟨r, hr⟩ := Option.isSome_iff_exists.mp hsome
    obtain ⟨ev, t', w'⟩ := r
    refine ⟨i, step_isSome hti hr ?_⟩
    intro hev
    rcases Thread.next_pc hr with ⟨-, hp, -⟩ | ⟨h1, -, -⟩ | ⟨h1, -, -, -⟩
    · exact absurd hp hpc
    · rw [hev] at h1; cases h1
    · exact absurd hev h1

theorem map_empty_of_allDone {s : Sys} (inv : SysInv s) (hd : allDone s) :
    s.world.g_async_trace_map = [] := by
  apply TraceMap.eq_nil_of_find_eq_none
  intro k
  rw [← Option.not_isSome_iff_eq_none]
  intro hk
  obtain ⟨i, t, ht, hh⟩ := (inv.present k).mp hk
  have hmem : t ∈ s.threads := List.getElem?_mem ht
  have hkeys := Thread.holds_mem_keys hh
  simp [Thread.keys, hd t hmem] at hkeys

theorem can_complete (nvtx : Nvtx) (n : Nat) : ∀ s : Sys, SysInv s → s.budget ≤ n →
    ∃ sched tr s', exec nvtx sched s = some (tr, s') ∧ allDone s' := by
  induction n with
  | zero =>
    intro s inv hb
    by_cases hd : allDone s
    · exact ⟨[], [], s, rfl, hd⟩
    · obtain ⟨i, hi⟩ := progress nvtx inv hd
      obtain ⟨r, hr⟩ := Option.isSome_iff_exists.mp hi
      obtain ⟨ev, s1⟩ := r
      have := step_budget hr
      omega
  | succ n ih =>
    intro s inv hb
    by_cases hd : allDone s
    · exact ⟨[], [], s, rfl, hd⟩
    · obtain ⟨i, hi⟩ := progress nvtx inv hd
      obtain ⟨r, hr⟩ := Option.isSome_iff_exists.mp hi
      obtain ⟨ev, s1⟩ := r
      have hlt := step_budget hr
      obtain ⟨sched, tr, s', he, hdone⟩ := ih s1 (SysInv_step inv hr) (by omega)
      exact ⟨i :: sched, (i, ev) :: tr, s', exec_cons_of_step hr he, hdone⟩

/-- C9: threads that each make start/end pairs, no key used by two threads, run from program
start under any schedule, one source statement at a time.  Replaying the events of the
execution, the mutex is free at every acquire, and every other statement, so every read and
write of `g_async_trace_map`, is made by the thread that holds `g_async_trace_mtx` at that
moment; in the state reached no two threads are inside the locked part of a call.  The
execution is no longer than the step budget of the initial state, is not stuck as long as a
thread has calls left, and can be run on until every thread is done; and whenever every
thread is done, `g_async_trace_map` is empty. -/
theorem concurrent_pairs_locked_and_empty (nvtx : Nvtx)
    (progs : List (List (String × uint16_t))) (hd : DisjointKeys progs) (sched : List Nat)
    (tr : List (Nat × Event)) (s' : Sys)
    (hexec : exec nvtx sched (initSys progs) = some (tr, s')) :
    lockDiscipline none tr = true ∧
      (∀ (i j : Nat) (ti tj : Thread), s'.threads[i]? = some ti → s'.threads[j]? = some tj →
        ti.pc ≠ Pc.entry → tj.pc ≠ Pc.entry → i = j) ∧
      (allDone s' → s'.world.g_async_trace_map = []) ∧
      (¬ allDone s' → ∃ i, (step nvtx i s').isSome = true) ∧
      sched.length + s'.budget ≤ (initSys progs).budget ∧
      ∃ (more : List Nat) (tr2 : List (Nat × Event)) (s2 : Sys),
        exec nvtx more s' = some (tr2, s2) ∧ allDone s2 ∧ s2.world.g_async_trace_map = [] := by
  have inv0 := SysInv_init hd
  have inv := SysInv_exec inv0 hexec
  refine ⟨exec_lockDiscipline inv0 hexec, ?_, map_empty_of_allDone inv, progress nvtx inv,
    exec_budget hexec, ?_⟩
  · intro i j ti tj hi hj hpi hpj
    have h1 := (inv.mutex i ti hi).mpr hpi
    have h2 := (inv.mutex j tj hj).mpr hpj
    rw [h1] at h2
    exact Option.some.inj h2
  · obtain ⟨more, tr2, s2, he, hdone⟩ := can_complete nvtx s'.budget s' inv (le_refl _)
    exact ⟨more, tr2, s2, he, hdone, map_empty_of_allDone (SysInv_exec inv he) hdone⟩

theorem concurrent_pairs_locked_and_empty_witness :
    DisjointKeys samplePlan ∧
    exec sampleNvtx sampleSched (initSys samplePlan) = some (sampleOutcome.1, sampleOutcome.2) ∧
    allDone sampleOutcome.2 ∧
    (lockDiscipline none sampleOutcome.1 = true ∧
      (∀ (i j : Nat) (ti tj : Thread), sampleOutcome.2.threads[i]? = some ti →
        sampleOutcome.2.threads[j]? = some tj →
        ti.pc ≠ Pc.entry → tj.pc ≠ Pc.entry → i = j) ∧
      (allDone sampleOutcome.2 → sampleOutcome.2.world.g_async_trace_map = []) ∧
      (¬ allDone sampleOutcome.2 → ∃ i, (step sampleNvtx i sampleOutcome.2).isSome = true) ∧
      sampleSched.length + sampleOutcome.2.budget ≤ (initSys samplePlan).budget ∧
      ∃ (more : List Nat) (tr2 : List (Nat × Event)) (s2 : Sys),
        exec sampleNvtx more sampleOutcome.2 = some (tr2, s2) ∧ allDone s2 ∧
          s2.world.g_async_trace_map = []) :=
  ⟨by decide, by rfl, by decide,
    concurrent_pairs_locked_and_empty sampleNvtx samplePlan (by decide) sampleSched
      sampleOutcome.1 sampleOutcome.2 (by rfl)⟩

end DebugProfiler
